import Mathlib

/-!
Verification of the PABLO parallel octree engine (`src/src/PABLO/ParaTree.cpp`)
against its natural-language specification.

The C++ code is shallowly embedded: each member function that a claim refers
to is translated into an executable Lean definition over an explicit state
record.  Machine integers are modelled as `Nat`/`Int`; where the C++ relies on
unsigned 32-bit wrap-around the reduction `% 2^32` is written out explicitly.
Sequenced MPI collectives are sequentialized: the per-rank loops act on the
global (concatenated) octant sequence, which is what the collectives
reconstruct.

Functions that live in translation units not shipped under `src/` (LocalTree,
Octant, TreeConstants, the binary read/write helpers) are modelled from the
specification; each such definition carries a doc comment starting with
`Modelled from the spec:`.
-/

namespace ParaTree

/-! ## Uniform partition (`ParaTree::computePartition(uint32_t*)`)

Translation of ParaTree.cpp lines 4692-4706: `division_result = N / P`,
`remind = N % P`, `partition[i] = division_result + 1` for `i < remind`
and `division_result` otherwise. -/

def computePartitionUniform (nGlobal nproc : ℕ) : List ℕ :=
  (List.range nproc).map (fun i =>
    if i < nGlobal % nproc then nGlobal / nproc + 1 else nGlobal / nproc)

/-! ## Weighted partition (`ParaTree::computePartition(const dvector*, uint32_t*)`)

Translation of ParaTree.cpp lines 4715-4784.  The global weight vector is
the all-gather-v of the local vectors; we take it directly as a function
`w : ℕ → ℚ` on global indices (the C++ uses `double`; the control flow of the
sweep is identical over any linearly ordered field, and we use `ℚ` so the
model is executable and exact).

The inner `while (partitionWeight < targetWeight)` loop adds the weight of
the next unassigned octant, increments the count, and breaks as soon as all
octants are assigned; `sweepLoop` is that loop with the remaining number of
octants as (exact) fuel.  `acc` is `partitionWeight`, `pos` is
`nAssigendOctants`. -/

def sweepLoop (w : ℕ → ℚ) (nGlobal : ℕ) (target : ℚ) : ℚ → ℕ → ℕ → ℕ
  | _, _, 0 => 0
  | acc, pos, fuel + 1 =>
    if acc < target then
      if pos + 1 = nGlobal then 1
      else 1 + sweepLoop w nGlobal target (acc + w pos) (pos + 1) fuel
    else 0

/-- `unassignedWeight w N a` is the C++ `unassignedWeight`: the sum of the
weights of the still unassigned octants `a, a+1, ..., N-1`. -/
def unassignedWeight (w : ℕ → ℚ) (nGlobal a : ℕ) : ℚ :=
  ((List.range (nGlobal - a)).map (fun k => w (a + k))).sum

/-- The outer `for (i = 0; i < m_nproc - 1; ++i)` loop of the weighted
partition.  `ranksLeft` is `m_nproc - i`; the loop body runs while
`ranksLeft ≥ 2` and the final rank is handled by the caller.  The explicit
`break` of the C++ when all octants are assigned is behaviourally redundant
here: once `assigned = nGlobal` the target weight is `0` and the sweep loop
assigns nothing. -/
def weightedGo (w : ℕ → ℚ) (nGlobal : ℕ) : ℕ → ℕ → List ℕ × ℕ
  | 0, a => ([], a)
  | 1, a => ([], a)
  | r + 2, a =>
    let target := unassignedWeight w nGlobal a / ((r : ℚ) + 2)
    let c := sweepLoop w nGlobal target 0 a (nGlobal - a)
    let rec_ := weightedGo w nGlobal (r + 1) (a + c)
    (c :: rec_.1, rec_.2)

def computePartitionWeighted (w : ℕ → ℚ) (nGlobal nproc : ℕ) : List ℕ :=
  let head := weightedGo w nGlobal nproc 0
  head.1 ++ [nGlobal - head.2]

/-! ## Basic lemmas about the two partitioners -/

theorem computePartitionUniform_length (nGlobal nproc : ℕ) :
    (computePartitionUniform nGlobal nproc).length = nproc := by
  simp [computePartitionUniform]

theorem computePartitionUniform_sum (nGlobal nproc : ℕ) (h : 0 < nproc) :
    (computePartitionUniform nGlobal nproc).sum = nGlobal := by
  unfold computePartitionUniform
  have hbridge : (List.map (fun i =>
      if i < nGlobal % nproc then nGlobal / nproc + 1 else nGlobal / nproc)
      (List.range nproc)).sum
      = ∑ i ∈ Finset.range nproc,
          (if i < nGlobal % nproc then nGlobal / nproc + 1 else nGlobal / nproc) := rfl
  rw [hbridge]
  have hsplit : ∀ i : ℕ,
      (if i < nGlobal % nproc then nGlobal / nproc + 1 else nGlobal / nproc)
        = nGlobal / nproc + (if i < nGlobal % nproc then 1 else 0) := by
    intro i; by_cases hi : i < nGlobal % nproc <;> simp [hi]
  rw [Finset.sum_congr rfl (fun i _ => hsplit i), Finset.sum_add_distrib]
  have hcard : (∑ i ∈ Finset.range nproc,
      if i < nGlobal % nproc then 1 else 0) = nGlobal % nproc := by
    have hmod : nGlobal % nproc ≤ nproc := le_of_lt (Nat.mod_lt _ h)
    rw [Finset.sum_boole]
    have : Finset.filter (fun i => i < nGlobal % nproc) (Finset.range nproc)
        = Finset.range (nGlobal % nproc) := by
      ext i
      simp only [Finset.mem_filter, Finset.mem_range]
      constructor
      · rintro ⟨_, hi⟩; exact hi
      · intro hi; exact ⟨lt_of_lt_of_le hi hmod, hi⟩
    simp [this]
  rw [Finset.sum_const, hcard, Finset.card_range]
  simp only [smul_eq_mul]
  rw [Nat.mul_comm nproc (nGlobal / nproc)]
  rw [Nat.mul_comm (nGlobal / nproc) nproc]
  exact Nat.div_add_mod nGlobal nproc

theorem sweepLoop_le_fuel (w : ℕ → ℚ) (N : ℕ) (t : ℚ) :
    ∀ fuel acc pos, sweepLoop w N t acc pos fuel ≤ fuel := by
  intro fuel
  induction fuel with
  | zero => intro acc pos; simp [sweepLoop]
  | succ n ih =>
    intro acc pos
    unfold sweepLoop
    by_cases h1 : acc < t
    · by_cases h2 : pos + 1 = N
      · simp [h1, h2]
      · simp only [h1, h2, if_true, if_false]
        have := ih (acc + w pos) (pos + 1)
        omega
    · simp [h1]

theorem weightedGo_spec (w : ℕ → ℚ) (N : ℕ) :
    ∀ r a, a ≤ N →
      (weightedGo w N r a).2 = a + (weightedGo w N r a).1.sum ∧
      (weightedGo w N r a).2 ≤ N := by
  intro r
  induction r using Nat.strong_induction_on with
  | _ r ih =>
    intro a ha
    match r with
    | 0 => simpa [weightedGo] using ha
    | 1 => simpa [weightedGo] using ha
    | r + 2 =>
      have hc := sweepLoop_le_fuel w N
        (unassignedWeight w N a / ((r : ℚ) + 2)) (N - a) 0 a
      have ha' : a + sweepLoop w N (unassignedWeight w N a / ((r : ℚ) + 2))
          0 a (N - a) ≤ N := by omega
      have := ih (r + 1) (by omega) _ ha'
      simp only [weightedGo]
      constructor
      · rw [List.sum_cons]; omega
      · exact this.2

theorem computePartitionWeighted_sum (w : ℕ → ℚ) (N P : ℕ) :
    (computePartitionWeighted w N P).sum = N := by
  obtain ⟨h1, h2⟩ := weightedGo_spec w N P 0 (Nat.zero_le N)
  unfold computePartitionWeighted
  rw [List.sum_append, List.sum_cons, List.sum_nil]
  omega

/-- `prefixW w a k`: the weight accumulated by a rank that starts assigning at
global index `a` and takes `k` consecutive octants. -/
def prefixW (w : ℕ → ℚ) (a k : ℕ) : ℚ :=
  ((List.range k).map (fun t => w (a + t))).sum

theorem prefixW_succ_shift (w : ℕ → ℚ) (a k : ℕ) :
    prefixW w a (k + 1) = w a + prefixW w (a + 1) k := by
  unfold prefixW
  rw [List.range_succ_eq_map, List.map_cons, List.map_map, List.sum_cons]
  have : ((fun t => w (a + t)) ∘ Nat.succ) = fun t => w (a + 1 + t) := by
    funext t
    simp only [Function.comp]
    rw [show a + Nat.succ t = a + 1 + t by omega]
  rw [this, Nat.add_zero]

/-- The inner sweep stops at the first count whose accumulated weight reaches
the target: every strictly smaller count is below target, and if the rank
stops before exhausting the unassigned octants then its accumulated weight is
at least the target. -/
theorem sweepLoop_greedy (w : ℕ → ℚ) (N : ℕ) (t : ℚ) :
    ∀ fuel acc pos, fuel = N - pos → pos ≤ N →
      (∀ j < sweepLoop w N t acc pos fuel, acc + prefixW w pos j < t) ∧
      (sweepLoop w N t acc pos fuel < fuel →
        t ≤ acc + prefixW w pos (sweepLoop w N t acc pos fuel)) := by
  intro fuel
  induction fuel with
  | zero =>
    intro acc pos _ _
    simp [sweepLoop]
  | succ f ih =>
    intro acc pos hfuel hpos
    by_cases h1 : acc < t
    · by_cases h2 : pos + 1 = N
      · have hf : f = 0 := by omega
        subst hf
        simp only [sweepLoop, h1, h2, if_true]
        constructor
        · intro j hj
          interval_cases j
          simpa [prefixW] using h1
        · omega
      · have hpos' : pos + 1 ≤ N := by omega
        have hf : f = N - (pos + 1) := by omega
        obtain ⟨ih1, ih2⟩ := ih (acc + w pos) (pos + 1) hf hpos'
        simp only [sweepLoop, h1, h2, if_true, if_false]
        constructor
        · intro j hj
          match j with
          | 0 => simpa [prefixW] using h1
          | j' + 1 =>
            rw [prefixW_succ_shift]
            have := ih1 j' (by omega)
            linarith
        · intro hlt
          rw [Nat.add_comm 1 (sweepLoop w N t (acc + w pos) (pos + 1) f),
            prefixW_succ_shift]
          have := ih2 (by omega)
          linarith
    · simp only [sweepLoop, h1, if_false]
      constructor
      · intro j hj; omega
      · intro _
        simpa [prefixW] using not_lt.mp h1

/-- Per-rank greedy characterisation of `weightedGo`: the head counts list has
one entry per rank `0 .. r-2`; each entry is the first count whose accumulated
weight reaches `unassignedWeight / ranksLeft`, computed against the octants
that remain after the previous ranks took theirs. -/
theorem weightedGo_greedy (w : ℕ → ℚ) (N : ℕ) :
    ∀ r a, a ≤ N →
      (weightedGo w N r a).1.length = r - 1 ∧
      (∀ i < r - 1,
        ((weightedGo w N r a).1.getD i 0) ≤
            N - (a + ((weightedGo w N r a).1.take i).sum) ∧
        (∀ j < (weightedGo w N r a).1.getD i 0,
          prefixW w (a + ((weightedGo w N r a).1.take i).sum) j <
            unassignedWeight w N (a + ((weightedGo w N r a).1.take i).sum) /
              ((r - i : ℕ) : ℚ)) ∧
        ((weightedGo w N r a).1.getD i 0 <
            N - (a + ((weightedGo w N r a).1.take i).sum) →
          unassignedWeight w N (a + ((weightedGo w N r a).1.take i).sum) /
              ((r - i : ℕ) : ℚ) ≤
            prefixW w (a + ((weightedGo w N r a).1.take i).sum)
              ((weightedGo w N r a).1.getD i 0))) := by
  intro r
  induction r using Nat.strong_induction_on with
  | _ r ih =>
    intro a ha
    match r with
    | 0 => simp [weightedGo]
    | 1 => simp [weightedGo]
    | r + 2 =>
      set t := unassignedWeight w N a / ((r : ℚ) + 2) with ht
      set c := sweepLoop w N t 0 a (N - a) with hc
      have hcle : c ≤ N - a := sweepLoop_le_fuel w N t (N - a) 0 a
      have ha' : a + c ≤ N := by omega
      obtain ⟨ihlen, ihprop⟩ := ih (r + 1) (by omega) (a + c) ha'
      have hgo : weightedGo w N (r + 2) a
          = (c :: (weightedGo w N (r + 1) (a + c)).1,
             (weightedGo w N (r + 1) (a + c)).2) := by
        simp only [weightedGo]
      rw [hgo]
      constructor
      · simp only [List.length_cons, ihlen]
        omega
      · intro i hi
        match i with
        | 0 =>
          simp only [List.getD_cons_zero, List.take_zero, List.sum_nil,
            Nat.add_zero]
          obtain ⟨hg1, hg2⟩ := sweepLoop_greedy w N t (N - a) 0 a rfl ha
          refine ⟨hcle, ?_, ?_⟩
          · intro j hj
            have := hg1 j hj
            have hcast : ((r + 2 - 0 : ℕ) : ℚ) = (r : ℚ) + 2 := by
              push_cast; ring
            rw [hcast]
            simpa using this
          · intro hlt
            have := hg2 hlt
            have hcast : ((r + 2 - 0 : ℕ) : ℚ) = (r : ℚ) + 2 := by
              push_cast; ring
            rw [hcast]
            simpa using this
        | i' + 1 =>
          have hi' : i' < r + 1 - 1 := by omega
          obtain ⟨hg1, hg2, hg3⟩ := ihprop i' hi'
          simp only [List.getD_cons_succ, List.take_succ_cons, List.sum_cons]
          have hre : a + (c + ((weightedGo w N (r + 1) (a + c)).1.take i').sum)
              = a + c + ((weightedGo w N (r + 1) (a + c)).1.take i').sum := by
            omega
          have hdiv : ((r + 2 - (i' + 1) : ℕ) : ℚ) = ((r + 1 - i' : ℕ) : ℚ) := by
            congr 1
            omega
          rw [hre, hdiv]
          exact ⟨hg1, hg2, hg3⟩

/-- C9: for every global octant count `N` and process count `P`, the uniform
partition (`ParaTree::computePartition(uint32_t*)`) assigns `⌊N/P⌋` octants to
every rank and one extra octant to each of the first `N mod P` ranks:
`partition[i] = ⌊N/P⌋ + 1` for `i < N mod P` and `⌊N/P⌋` otherwise. -/
theorem computePartition_uniform_floor_plus_remainder (N P : ℕ) (hP : 0 < P) :
    (computePartitionUniform N P).length = P ∧
    (computePartitionUniform N P).sum = N ∧
    ∀ i, i < P →
      (computePartitionUniform N P).getD i 0
        = if i < N % P then N / P + 1 else N / P := by
  refine ⟨computePartitionUniform_length N P,
    computePartitionUniform_sum N P hP, ?_⟩
  intro i hi
  unfold computePartitionUniform
  rw [List.getD_eq_getElem?_getD, List.getElem?_map, List.getElem?_range hi]
  rfl

/-- Witness for C9 at `N = 7`, `P = 3`. -/
theorem computePartition_uniform_floor_plus_remainder_witness :
    0 < 3 ∧
    ((computePartitionUniform 7 3).length = 3 ∧
     (computePartitionUniform 7 3).sum = 7 ∧
     ∀ i, i < 3 →
       (computePartitionUniform 7 3).getD i 0
         = if i < 7 % 3 then 7 / 3 + 1 else 7 / 3) :=
  ⟨by decide, computePartition_uniform_floor_plus_remainder 7 3 (by decide)⟩

/-- C8: for every global weight vector the weighted partition
(`ParaTree::computePartition(const dvector*, uint32_t*)`) is the greedy sweep:
each rank `i ∈ [0, P-2]` takes consecutive octants, starting after those the
previous ranks took, until its accumulated weight first reaches
`unassignedWeight / (P - i)` (or until the octants run out), and rank `P-1`
receives all remaining octants.  The partition is a pure function of the
global weight vector, hence deterministic. -/
theorem computePartition_weighted_greedy (w : ℕ → ℚ) (N P : ℕ) (hP : 1 ≤ P) :
    (computePartitionWeighted w N P).length = P ∧
    (∀ i < P - 1,
      (computePartitionWeighted w N P).getD i 0
          ≤ N - ((computePartitionWeighted w N P).take i).sum ∧
      (∀ j < (computePartitionWeighted w N P).getD i 0,
        prefixW w (((computePartitionWeighted w N P).take i).sum) j <
          unassignedWeight w N (((computePartitionWeighted w N P).take i).sum)
            / ((P - i : ℕ) : ℚ)) ∧
      ((computePartitionWeighted w N P).getD i 0
          < N - ((computePartitionWeighted w N P).take i).sum →
        unassignedWeight w N (((computePartitionWeighted w N P).take i).sum)
            / ((P - i : ℕ) : ℚ) ≤
          prefixW w (((computePartitionWeighted w N P).take i).sum)
            ((computePartitionWeighted w N P).getD i 0))) ∧
    (computePartitionWeighted w N P).getD (P - 1) 0
      = N - ((computePartitionWeighted w N P).take (P - 1)).sum := by
  obtain ⟨hlen, hprop⟩ := weightedGo_greedy w N P 0 (Nat.zero_le N)
  obtain ⟨hsum, hle⟩ := weightedGo_spec w N P 0 (Nat.zero_le N)
  have hpart : computePartitionWeighted w N P
      = (weightedGo w N P 0).1 ++ [N - (weightedGo w N P 0).2] := rfl
  have htake : ∀ i, i ≤ P - 1 →
      ((computePartitionWeighted w N P).take i)
        = ((weightedGo w N P 0).1.take i) := by
    intro i hi
    rw [hpart]
    exact List.take_append_of_le_length (by omega)
  have hgetD : ∀ i, i < P - 1 →
      (computePartitionWeighted w N P).getD i 0
        = (weightedGo w N P 0).1.getD i 0 := by
    intro i hi
    rw [hpart, List.getD_eq_getElem?_getD, List.getD_eq_getElem?_getD,
      List.getElem?_append_left (by omega)]
  refine ⟨?_, ?_, ?_⟩
  · rw [hpart, List.length_append, hlen]
    simp only [List.length_cons, List.length_nil]
    omega
  · intro i hi
    obtain ⟨hg1, hg2, hg3⟩ := hprop i hi
    rw [hgetD i hi, htake i (le_of_lt hi)]
    simp only [Nat.zero_add] at hg1 hg2 hg3
    exact ⟨hg1, hg2, hg3⟩
  · rw [hpart, htake (P - 1) (le_refl _)] at *
    rw [List.getD_eq_getElem?_getD, List.getElem?_append_right (by omega),
      hlen]
    have hfull : (weightedGo w N P 0).1.take (P - 1)
        = (weightedGo w N P 0).1 := List.take_of_length_le (by omega)
    rw [hfull]
    simp only [Nat.sub_self, List.getElem?_cons_zero, Option.getD_some]
    omega

/-- Witness for C8 at `w = const 1`, `N = 5`, `P = 2`. -/
theorem computePartition_weighted_greedy_witness :
    1 ≤ 2 ∧
    ((computePartitionWeighted (fun _ => (1 : ℚ)) 5 2).length = 2 ∧
     (∀ i < 2 - 1,
       (computePartitionWeighted (fun _ => (1 : ℚ)) 5 2).getD i 0
           ≤ 5 - ((computePartitionWeighted (fun _ => (1 : ℚ)) 5 2).take i).sum ∧
       (∀ j < (computePartitionWeighted (fun _ => (1 : ℚ)) 5 2).getD i 0,
         prefixW (fun _ => (1 : ℚ))
             (((computePartitionWeighted (fun _ => (1 : ℚ)) 5 2).take i).sum) j <
           unassignedWeight (fun _ => (1 : ℚ)) 5
               (((computePartitionWeighted (fun _ => (1 : ℚ)) 5 2).take i).sum)
             / ((2 - i : ℕ) : ℚ)) ∧
       ((computePartitionWeighted (fun _ => (1 : ℚ)) 5 2).getD i 0
           < 5 - ((computePartitionWeighted (fun _ => (1 : ℚ)) 5 2).take i).sum →
         unassignedWeight (fun _ => (1 : ℚ)) 5
             (((computePartitionWeighted (fun _ => (1 : ℚ)) 5 2).take i).sum)
             / ((2 - i : ℕ) : ℚ) ≤
           prefixW (fun _ => (1 : ℚ))
             (((computePartitionWeighted (fun _ => (1 : ℚ)) 5 2).take i).sum)
             ((computePartitionWeighted (fun _ => (1 : ℚ)) 5 2).getD i 0))) ∧
     (computePartitionWeighted (fun _ => (1 : ℚ)) 5 2).getD (2 - 1) 0
       = 5 - ((computePartitionWeighted (fun _ => (1 : ℚ)) 5 2).take (2 - 1)).sum) :=
  ⟨by decide, computePartition_weighted_greedy (fun _ => (1 : ℚ)) 5 2 (by decide)⟩

/-! ## Owner lookup (`ParaTree::findOwner`, ParaTree.cpp lines 3905-3942)

`ld` is the replicated array `m_partitionLastDesc` (owner-last-descendant
Morton keys), accessed as a total function; the C++ only ever reads indices
`0 .. nproc-1` on the executions covered by the theorems below.  The loop is
the bisection `while (beg != end) { ... }`, written with explicit fuel;
`nproc + 1` units of fuel are enough (shown in the correctness proof). -/

def findOwnerLoop (ld : ℕ → ℕ) (m : ℕ) : ℕ → ℕ → ℕ → ℕ → ℕ
  | 0, beg, _, _ => beg
  | fuel + 1, beg, en, seed =>
    if beg = en then beg
    else if m ≤ ld seed then
      let beg' := if ld (seed - 1) < m then seed else beg
      findOwnerLoop ld m fuel beg' seed (beg' + (seed - beg') / 2)
    else
      let beg' := if m ≤ ld (seed + 1) then seed + 1 else seed
      findOwnerLoop ld m fuel beg' en (beg' + (en - beg') / 2)

/-- The backward walk `while (lastDesc[beg] == lastDesc[beg-1]) --beg;`
executed after the bisection, stepping over empty partitions. -/
def findOwnerWalk (ld : ℕ → ℕ) : ℕ → ℕ
  | 0 => 0
  | b + 1 => if ld (b + 1) = ld b then findOwnerWalk ld b else b + 1

/-- `ParaTree::findOwner`.  Returns `-1` when the Morton key lies past the
last partition (the C++ early return). -/
def findOwner (nproc : ℕ) (ld : ℕ → ℕ) (m : ℕ) : ℤ :=
  if m ≤ ld 0 then 0
  else if ld (nproc - 1) < m then -1
  else
    (findOwnerWalk ld
      (findOwnerLoop ld m (nproc + 1) 0 (nproc - 1) (nproc / 2)) : ℤ)

theorem findOwnerLoop_correct (nproc : ℕ) (ld : ℕ → ℕ) (m : ℕ)
    (hmono : ∀ q r, q ≤ r → r ≤ nproc - 1 → ld q ≤ ld r) :
    ∀ fuel beg en seed,
      beg ≤ seed → seed ≤ en → en ≤ nproc - 1 →
      ld 0 < m → m ≤ ld en →
      (beg = 0 ∨ ld (beg - 1) < m) →
      (seed = beg → en ≤ beg + 1) →
      (seed = en → en ≤ beg + 1) →
      (if beg = en then 0 else (en - beg) + (if seed = en then 1 else 0)) + 1
        ≤ fuel →
      ld (findOwnerLoop ld m fuel beg en seed - 1) < m ∧
      m ≤ ld (findOwnerLoop ld m fuel beg en seed) ∧
      findOwnerLoop ld m fuel beg en seed ≤ nproc - 1 := by
  intro fuel
  induction fuel with
  | zero =>
    intro beg en seed _ _ _ _ _ _ _ _ hμ
    split_ifs at hμ <;> omega
  | succ f ih =>
    intro beg en seed h1 h2 h3 h4 h5 h6 h7 h8 hμ
    by_cases hbe : beg = en
    · -- loop exit
      have hstep : findOwnerLoop ld m (f + 1) beg en seed = beg := by
        simp [findOwnerLoop, hbe]
      rw [hstep]
      rcases h6 with h6 | h6
      · exfalso
        subst h6
        rw [← hbe] at h5
        omega
      · exact ⟨h6, by rw [hbe]; exact h5, by omega⟩
    · have hblt : beg < en := lt_of_le_of_ne (le_trans h1 h2) hbe
      by_cases hm : m ≤ ld seed
      · by_cases hsd : ld (seed - 1) < m
        · -- end = seed; beg = seed: the interval collapses
          have hstep : findOwnerLoop ld m (f + 1) beg en seed
              = findOwnerLoop ld m f seed seed (seed + (seed - seed) / 2) := by
            simp [findOwnerLoop, hbe, hm, hsd]
          rw [hstep]
          refine ih seed seed (seed + (seed - seed) / 2) (by omega) (by omega)
            (by omega) h4 hm (Or.inr hsd) (by omega) (by omega) ?_
          split_ifs at hμ ⊢ <;> omega
        · -- end = seed; beg unchanged
          have hstep : findOwnerLoop ld m (f + 1) beg en seed
              = findOwnerLoop ld m f beg seed (beg + (seed - beg) / 2) := by
            simp [findOwnerLoop, hbe, hm, hsd]
          rw [hstep]
          refine ih beg seed (beg + (seed - beg) / 2) (by omega) (by omega)
            (by omega) h4 hm h6 (by omega) (by omega) ?_
          split_ifs at hμ ⊢ <;> omega
      · have hsm : ld seed < m := not_le.mp hm
        have hslt : seed < en := by
          rcases lt_or_eq_of_le h2 with h | h
          · exact h
          · exfalso; rw [h] at hsm; omega
        by_cases hs1 : m ≤ ld (seed + 1)
        · -- beg = seed + 1
          have hstep : findOwnerLoop ld m (f + 1) beg en seed
              = findOwnerLoop ld m f (seed + 1) en
                  ((seed + 1) + (en - (seed + 1)) / 2) := by
            simp [findOwnerLoop, hbe, hm, hs1]
          rw [hstep]
          refine ih (seed + 1) en ((seed + 1) + (en - (seed + 1)) / 2)
            (by omega) (by omega) h3 h4 h5
            (Or.inr (by simpa using hsm)) (by omega) (by omega) ?_
          split_ifs at hμ ⊢ <;> omega
        · -- beg = seed
          have hbs : beg < seed := by
            rcases lt_or_eq_of_le h1 with h | h
            · exact h
            · exfalso
              have := h7 h.symm
              have hse : seed + 1 = en := by omega
              rw [hse] at hs1
              exact hs1 h5
          have hstep : findOwnerLoop ld m (f + 1) beg en seed
              = findOwnerLoop ld m f seed en (seed + (en - seed) / 2) := by
            simp [findOwnerLoop, hbe, hm, hs1]
          rw [hstep]
          have hprev : ld (seed - 1) < m :=
            lt_of_le_of_lt (hmono (seed - 1) seed (by omega)
              (le_trans h2 h3)) hsm
          refine ih seed en (seed + (en - seed) / 2) (by omega) (by omega)
            h3 h4 h5 (Or.inr hprev) (by omega) (by omega) ?_
          split_ifs at hμ ⊢ <;> omega

theorem findOwnerWalk_fixed (ld : ℕ → ℕ) (b : ℕ)
    (h : ld (b - 1) < ld b) : findOwnerWalk ld b = b := by
  match b with
  | 0 => rfl
  | b' + 1 =>
    have : ¬ (ld (b' + 1) = ld b') := by
      simp only [Nat.add_sub_cancel] at h
      omega
    simp [findOwnerWalk, this]

/-- C5: for every Morton key `m` of a globally existing octant, `findOwner m`
returns the unique non-empty rank `p` owning `m`.  In the partition registry
(`m_partitionLastDesc`, with empty ranks inheriting the previous non-empty
rank's entry and rank 0 never empty), a non-empty rank `p` owns exactly the
keys in `(last_desc[p-1], last_desc[p]]` (`[first_desc[p], last_desc[p]]`),
and rank 0 owns `[0, last_desc[0]]`; this interval membership is the
`ownership` disjunct below.  The hypotheses are that the key is owned by some
rank `p` and that `last_desc` is non-decreasing over the ranks (which the
backward fill of `updateGlobalLasttDescMorton` guarantees). -/
theorem findOwner_returns_unique_owner (nproc : ℕ) (ld : ℕ → ℕ) (m p : ℕ)
    (hmono : ∀ q r, q ≤ r → r ≤ nproc - 1 → ld q ≤ ld r)
    (hp : p ≤ nproc - 1)
    (howns : (p = 0 ∧ m ≤ ld 0) ∨ (0 < p ∧ ld (p - 1) < m ∧ m ≤ ld p)) :
    findOwner nproc ld m = (p : ℤ) ∧
    (∀ q, q ≤ nproc - 1 →
      ((q = 0 ∧ m ≤ ld 0) ∨ (0 < q ∧ ld (q - 1) < m ∧ m ≤ ld q)) → q = p) := by
  have huniq : ∀ q, q ≤ nproc - 1 →
      ((q = 0 ∧ m ≤ ld 0) ∨ (0 < q ∧ ld (q - 1) < m ∧ m ≤ ld q)) → q = p := by
    intro q hq hqowns
    rcases howns with ⟨hp0, hpm⟩ | ⟨hp0, hpl, hpr⟩ <;>
      rcases hqowns with ⟨hq0, hqm⟩ | ⟨hq0, hql, hqr⟩
    · omega
    · exfalso
      have : ld 0 ≤ ld (q - 1) := hmono 0 (q - 1) (by omega) (by omega)
      omega
    · exfalso
      have : ld 0 ≤ ld (p - 1) := hmono 0 (p - 1) (by omega) (by omega)
      omega
    · by_contra hne
      rcases Nat.lt_or_ge q p with h | h
      · have : ld q ≤ ld (p - 1) := hmono q (p - 1) (by omega) (by omega)
        omega
      · have hpq : p < q := by omega
        have : ld p ≤ ld (q - 1) := hmono p (q - 1) (by omega) (by omega)
        omega
  refine ⟨?_, huniq⟩
  rcases howns with ⟨hp0, hpm⟩ | ⟨hp0, hpl, hpr⟩
  · subst hp0
    simp [findOwner, hpm]
  · have hm0 : ld 0 < m := by
      have : ld 0 ≤ ld (p - 1) := hmono 0 (p - 1) (by omega) (by omega)
      omega
    have hmlast : m ≤ ld (nproc - 1) :=
      le_trans hpr (hmono p (nproc - 1) hp (le_refl _))
    have hnp : 2 ≤ nproc := by
      by_contra hcon
      have hz : nproc - 1 = 0 := by omega
      rw [hz] at hmlast
      omega
    obtain ⟨hb1, hb2, hb3⟩ := findOwnerLoop_correct nproc ld m hmono
      (nproc + 1) 0 (nproc - 1) (nproc / 2)
      (Nat.zero_le _) (by omega) (le_refl _) hm0
      (by simpa using hmlast) (Or.inl rfl)
      (by omega)
      (by intro h; omega)
      (by split_ifs <;> omega)
    set b := findOwnerLoop ld m (nproc + 1) 0 (nproc - 1) (nproc / 2) with hbdef
    have hwalk : findOwnerWalk ld b = b :=
      findOwnerWalk_fixed ld b (lt_of_lt_of_le hb1 hb2)
    have hbp : b = p := huniq b hb3 (by
      rcases Nat.eq_zero_or_pos b with hb0 | hbpos
      · rw [hb0] at hb1 hb2
        simp only [Nat.zero_sub] at hb1
        omega
      · exact Or.inr ⟨hbpos, hb1, hb2⟩)
    simp only [findOwner, if_neg (by omega : ¬ m ≤ ld 0),
      if_neg (by omega : ¬ ld (nproc - 1) < m)]
    rw [← hbdef, hwalk, hbp]

/-- Witness for C5: four ranks with `last_desc = [3, 7, 7, 15]` (rank 2 empty,
inheriting rank 1's entry); the key `6` is owned by rank 1. -/
theorem findOwner_returns_unique_owner_witness :
    (∀ q r : ℕ, q ≤ r → r ≤ 4 - 1 →
      [3, 7, 7, 15].getD q 0 ≤ [3, 7, 7, 15].getD r 0) ∧
    (1 ≤ 4 - 1) ∧
    (findOwner 4 (fun i => [3, 7, 7, 15].getD i 0) 6 = (1 : ℤ) ∧
     ∀ q, q ≤ 4 - 1 →
       ((q = 0 ∧ 6 ≤ [3, 7, 7, 15].getD 0 0) ∨
        (0 < q ∧ [3, 7, 7, 15].getD (q - 1) 0 < 6 ∧
          6 ≤ [3, 7, 7, 15].getD q 0)) → q = 1) := by
  refine ⟨?_, by decide, ?_⟩
  · intro q r hqr hr
    interval_cases r <;> interval_cases q <;> decide
  · exact findOwner_returns_unique_owner 4 (fun i => [3, 7, 7, 15].getD i 0)
      6 1
      (by intro q r hqr hr; interval_cases r <;> interval_cases q <;> decide)
      (by decide) (by decide)

/-! ## Error values

The C++ signals errors with `throw std::runtime_error(...)`; the distinct
throw sites relevant to the claims are represented by this enumeration. -/

inductive PErr where
  | invalidState
  | haloDisabled
  | haloTooLarge
  | versionMismatch
  | rankMismatch
  | invalidDim
  | corrupt
deriving DecidableEq

/-! ## Ghost-halo width (`ParaTree::setNofGhostLayers`, lines 2555-2569)

`layer_t` is the return type of `Octant::getGhostLayer`, a C `int`, so the
maximum allowed halo width is `INT_MAX + 1 = 2^31`.  A throwing call leaves
the object untouched (both throws precede the assignment), which the model
expresses by returning the input state together with the error. -/

structure HaloState where
  nofGhostLayers : ℕ
deriving DecidableEq

def maxNofGhostLayers : ℕ := 2 ^ 31

def setNofGhostLayers (s : HaloState) (n : ℕ) : HaloState × Option PErr :=
  if s.nofGhostLayers = 0 then (s, some PErr.haloDisabled)
  else if maxNofGhostLayers < n then (s, some PErr.haloTooLarge)
  else (⟨n⟩, none)

/-- C2: the guard of `setNofGhostLayers` tests the *stored* halo width
(`m_nofGhostLayers == 0`) instead of the argument, so with the halo currently
`1` the call `setNofGhostLayers(0)` is **accepted** and stores `0` — the
exact transition the claim (and the function's own error message,
"It is not possible to disable the ghost halo!") forbids.  Afterwards every
call, with any argument, fails.  This theorem evaluates the code at that
failing input. -/
theorem setNofGhostLayers_zero_accepted :
    setNofGhostLayers ⟨1⟩ 0 = (⟨0⟩, none) ∧
    (∀ k, setNofGhostLayers ⟨0⟩ k = (⟨0⟩, some PErr.haloDisabled)) := by
  constructor
  · rfl
  · intro k
    rfl

/-! ## Marker / balance setters and the pre-adapt gate
(`ParaTree::setMarker` 1696-1702, `ParaTree::setBalance` 1708-1715,
`ParaTree::setBalanceCodimension` 2250-2257, `ParaTree::preadapt` 3662-3675,
`ParaTree::adapt` → `private_adapt_mapidx` 4526-4634)

Each setter throws `std::runtime_error` when `m_lastOp == OP_PRE_ADAPT` and
otherwise delegates to the local tree.  The delegated stores
(`LocalTree::setMarker` / `setBalance` / `setBalanceCodim`) are in sources
not shipped here and are modelled from the spec as plain stores.  The
refine/coarsen fixed point of `adapt` and the `balance21` marker propagation
of `preadapt` are likewise in the local-tree sources; the gating claim is
independent of what they compute, so they are taken as arbitrary functions
on the tree data. -/

inductive TreeOp where
  | init
  | adaptMapped
  | adaptUnmapped
  | loadBalance
  | loadBalanceFirst
  | preAdapt
deriving DecidableEq

structure MarkerState where
  lastOp : TreeOp
  markers : List ℤ
  balances : List Bool
  balanceCodim : ℕ
deriving DecidableEq

def setMarker (s : MarkerState) (idx : ℕ) (mk : ℤ) :
    MarkerState × Option PErr :=
  if s.lastOp = TreeOp.preAdapt then (s, some PErr.invalidState)
  else ({ s with markers := s.markers.set idx mk }, none)

def setBalance (s : MarkerState) (idx : ℕ) (b : Bool) :
    MarkerState × Option PErr :=
  if s.lastOp = TreeOp.preAdapt then (s, some PErr.invalidState)
  else ({ s with balances := s.balances.set idx b }, none)

def setBalanceCodimension (s : MarkerState) (codim : ℕ) :
    MarkerState × Option PErr :=
  if s.lastOp = TreeOp.preAdapt then (s, some PErr.invalidState)
  else ({ s with balanceCodim := codim }, none)

/-- `ParaTree::preadapt`: run `balance21(true, false)` (an arbitrary marker
transformation `bal` here) and set `m_lastOp = OP_PRE_ADAPT`. -/
def preadapt (bal : List ℤ → List ℤ) (s : MarkerState) : MarkerState :=
  { s with markers := bal s.markers, lastOp := TreeOp.preAdapt }

/-- `ParaTree::adapt` via `private_adapt_mapidx`: run the refine/coarsen
fixed point (an arbitrary transformation `rc` of markers and balance flags
here) and set `m_lastOp` to `OP_ADAPT_MAPPED` or `OP_ADAPT_UNMAPPED`. -/
def adapt (rc : List ℤ × List Bool → List ℤ × List Bool) (mapFlag : Bool)
    (s : MarkerState) : MarkerState :=
  { s with markers := (rc (s.markers, s.balances)).1,
           balances := (rc (s.markers, s.balances)).2,
           lastOp := if mapFlag then TreeOp.adaptMapped
                     else TreeOp.adaptUnmapped }

/-- C7: between `preadapt` and the completion of `adapt`, every call to
`setMarker`, `setBalance` or `setBalanceCodimension` fails with the
invalid-state error and returns the state unchanged (the throw precedes any
store); once `adapt` has run — whatever the refine/coarsen loops did — the
last operation is an adapt state and the same calls succeed and perform
their stores. -/
theorem preadapt_gates_setters (s : MarkerState) (bal : List ℤ → List ℤ)
    (rc : List ℤ × List Bool → List ℤ × List Bool) (mapFlag : Bool)
    (idx : ℕ) (mk : ℤ) (b : Bool) (cd : ℕ) :
    (setMarker (preadapt bal s) idx mk
        = (preadapt bal s, some PErr.invalidState)) ∧
    (setBalance (preadapt bal s) idx b
        = (preadapt bal s, some PErr.invalidState)) ∧
    (setBalanceCodimension (preadapt bal s) cd
        = (preadapt bal s, some PErr.invalidState)) ∧
    ((adapt rc mapFlag (preadapt bal s)).lastOp
        = if mapFlag then TreeOp.adaptMapped else TreeOp.adaptUnmapped) ∧
    ((setMarker (adapt rc mapFlag (preadapt bal s)) idx mk).2 = none) ∧
    ((setMarker (adapt rc mapFlag (preadapt bal s)) idx mk).1.markers
        = (adapt rc mapFlag (preadapt bal s)).markers.set idx mk) ∧
    ((setBalance (adapt rc mapFlag (preadapt bal s)) idx b).2 = none) ∧
    ((setBalance (adapt rc mapFlag (preadapt bal s)) idx b).1.balances
        = (adapt rc mapFlag (preadapt bal s)).balances.set idx b) ∧
    ((setBalanceCodimension (adapt rc mapFlag (preadapt bal s)) cd).2
        = none) ∧
    ((setBalanceCodimension (adapt rc mapFlag (preadapt bal s)) cd).1.balanceCodim
        = cd) := by
  have hpre : (preadapt bal s).lastOp = TreeOp.preAdapt := rfl
  have hadapt : (adapt rc mapFlag (preadapt bal s)).lastOp
      = if mapFlag then TreeOp.adaptMapped else TreeOp.adaptUnmapped := rfl
  have hne : (adapt rc mapFlag (preadapt bal s)).lastOp ≠ TreeOp.preAdapt := by
    rw [hadapt]
    cases mapFlag <;> simp
  refine ⟨?_, ?_, ?_, hadapt, ?_, ?_, ?_, ?_, ?_, ?_⟩ <;>
    simp [setMarker, setBalance, setBalanceCodimension, hpre, hne]

/-! ## Periodic faces (`ParaTree::setPeriodic` 1251-1256,
`ParaTree::getPeriodic` 1236-1239)

`m_periodic` has one flag per face (`2 * dim` faces).  `setPeriodic(i)` sets
the flag of `i` and of the opposite face and forwards the vector to the
local tree (which keeps no separate observable state here). -/

/-- Modelled from the spec: the opposite-face table
(`TreeConstants::oppositeFace`, sources not shipped).  Faces are ordered
(xmin, xmax, ymin, ymax, zmin, zmax), so opposite faces are the min/max pair
of the same axis. -/
def oppositeFace (i : ℕ) : ℕ := if i % 2 = 0 then i + 1 else i - 1

structure PeriodicState where
  dim : ℕ
  periodic : List Bool
deriving DecidableEq

def getPeriodic (s : PeriodicState) (i : ℕ) : Bool := s.periodic.getD i false

def setPeriodic (s : PeriodicState) (i : ℕ) : PeriodicState :=
  { s with periodic := (s.periodic.set i true).set (oppositeFace i) true }

/-- A freshly constructed tree: no face periodic (`setDim` resizes
`m_periodic` to `2 * dim` entries, all `false`). -/
def initialPeriodic (dim : ℕ) : PeriodicState :=
  ⟨dim, List.replicate (2 * dim) false⟩

/-- The periodic flags reachable through the public interface: the initial
state followed by any sequence of `setPeriodic` calls. -/
def applyPeriodicCalls (dim : ℕ) (calls : List ℕ) : PeriodicState :=
  calls.foldl setPeriodic (initialPeriodic dim)

theorem oppositeFace_lt (i n : ℕ) (h : i < 2 * n) : oppositeFace i < 2 * n := by
  unfold oppositeFace
  split_ifs with hpar <;> omega

theorem oppositeFace_involutive (i : ℕ) : oppositeFace (oppositeFace i) = i := by
  unfold oppositeFace
  split_ifs with h1 h2 h2 <;> omega

theorem getPeriodic_setPeriodic_same (s : PeriodicState) (i : ℕ)
    (hi : i < s.periodic.length) :
    getPeriodic (setPeriodic s i) i = true := by
  unfold getPeriodic setPeriodic
  by_cases hop : oppositeFace i = i
  · rw [hop]
    simp only [List.getD_eq_getElem?_getD]
    rw [List.getElem?_set_eq_of_lt true (by simpa [List.length_set] using hi)]
    rfl
  · simp only [List.getD_eq_getElem?_getD]
    rw [List.getElem?_set_ne (fun h => hop h)]
    rw [List.getElem?_set_eq_of_lt true hi]
    rfl

theorem getPeriodic_setPeriodic_opp (s : PeriodicState) (i : ℕ)
    (hop : oppositeFace i < s.periodic.length) :
    getPeriodic (setPeriodic s i) (oppositeFace i) = true := by
  unfold getPeriodic setPeriodic
  simp only [List.getD_eq_getElem?_getD]
  rw [List.getElem?_set_eq_of_lt true (by simpa [List.length_set] using hop)]
  rfl

theorem getPeriodic_setPeriodic_other (s : PeriodicState) (i j : ℕ)
    (h1 : j ≠ i) (h2 : j ≠ oppositeFace i) :
    getPeriodic (setPeriodic s i) j = getPeriodic s j := by
  unfold getPeriodic setPeriodic
  simp only [List.getD_eq_getElem?_getD]
  rw [List.getElem?_set_ne (fun h => h2 h.symm),
    List.getElem?_set_ne (fun h => h1 h.symm)]

/-- Pairing invariant of the reachable periodic states. -/
theorem applyPeriodicCalls_paired (dim : ℕ) (calls : List ℕ) :
    (applyPeriodicCalls dim calls).periodic.length = 2 * dim ∧
    ∀ i, i < 2 * dim →
      getPeriodic (applyPeriodicCalls dim calls) i = true →
      getPeriodic (applyPeriodicCalls dim calls) (oppositeFace i) = true := by
  unfold applyPeriodicCalls
  induction calls using List.reverseRecOn with
  | nil =>
    constructor
    · simp [initialPeriodic]
    · intro i hi hcontra
      exfalso
      unfold getPeriodic initialPeriodic at hcontra
      simp [List.getD_eq_getElem?_getD, List.getElem?_replicate, hi] at hcontra
  | append_singleton calls c ih =>
    obtain ⟨ihlen, ihpair⟩ := ih
    rw [List.foldl_append, List.foldl_cons, List.foldl_nil]
    set t := List.foldl setPeriodic (initialPeriodic dim) calls with ht
    constructor
    · simp only [setPeriodic, List.length_set]
      exact ihlen
    · intro i hi hset
      by_cases hic : i = c
      · subst hic
        exact getPeriodic_setPeriodic_opp t i
          (by rw [ihlen]; exact oppositeFace_lt i dim hi)
      · by_cases hioc : i = oppositeFace c
        · subst hioc
          rw [oppositeFace_involutive]
          exact getPeriodic_setPeriodic_same t c
            (by rw [ihlen]
                have := oppositeFace_lt (oppositeFace c) dim hi
                rwa [oppositeFace_involutive] at this)
        · rw [getPeriodic_setPeriodic_other t c i hic hioc] at hset
          have hpair := ihpair i hi hset
          by_cases hoc : oppositeFace i = c
          · rw [hoc]
            refine getPeriodic_setPeriodic_same t c ?_
            rw [ihlen, ← hoc]
            exact oppositeFace_lt i dim hi
          · by_cases hooc : oppositeFace i = oppositeFace c
            · exfalso
              have := congrArg oppositeFace hooc
              rw [oppositeFace_involutive, oppositeFace_involutive] at this
              exact hic this
            · rw [getPeriodic_setPeriodic_other t c (oppositeFace i) hoc hooc]
              exact hpair

/-- C10: `setPeriodic i` marks both face `i` and its opposite face as
periodic — after the call `getPeriodic` returns `true` on both — and no
sequence of `setPeriodic` calls can reach a state in which a face is
periodic while its opposite is not. -/
theorem setPeriodic_marks_both_faces (dim : ℕ) (calls : List ℕ) (i : ℕ)
    (hi : i < 2 * dim) :
    (getPeriodic (setPeriodic (applyPeriodicCalls dim calls) i) i = true ∧
     getPeriodic (setPeriodic (applyPeriodicCalls dim calls) i)
       (oppositeFace i) = true) ∧
    (getPeriodic (applyPeriodicCalls dim calls) i = true →
     getPeriodic (applyPeriodicCalls dim calls) (oppositeFace i) = true) := by
  obtain ⟨hlen, hpair⟩ := applyPeriodicCalls_paired dim calls
  refine ⟨⟨?_, ?_⟩, hpair i hi⟩
  · exact getPeriodic_setPeriodic_same _ i (by rw [hlen]; exact hi)
  · exact getPeriodic_setPeriodic_opp _ i
      (by rw [hlen]; exact oppositeFace_lt i dim hi)

/-- Witness for C10 at `dim = 2`, one prior call `setPeriodic 2`, face 0. -/
theorem setPeriodic_marks_both_faces_witness :
    0 < 2 * 2 ∧
    ((getPeriodic (setPeriodic (applyPeriodicCalls 2 [2]) 0) 0 = true ∧
      getPeriodic (setPeriodic (applyPeriodicCalls 2 [2]) 0)
        (oppositeFace 0) = true) ∧
     (getPeriodic (applyPeriodicCalls 2 [2]) 0 = true →
      getPeriodic (applyPeriodicCalls 2 [2]) (oppositeFace 0) = true)) :=
  ⟨by decide, setPeriodic_marks_both_faces 2 [2] 0 (by decide)⟩

/-! ## Adapt mapping (`ParaTree::getMapping` 3368-3407,
`ParaTree::adaptGlobalRefine` 3725-3800, `ParaTree::adaptGlobalCoarse`
3806-3889)

The serial path is modelled.  `adaptGlobalRefine` clears the new-by flags,
initialises `m_mapIdx` to the identity and runs `LocalTree::globalRefine`
(force all markers to `+1`, one refine pass) to completion;
`adaptGlobalCoarse` does the same with `LocalTree::globalCoarse` (force all
markers to `-1`, one coarsen pass).  The local-tree passes are in sources not
shipped here and are modelled from the spec (§4.3, §4.7): a refined parent is
replaced by its `2^dim` children in Morton order, each child recording the
parent's pre-pass index; a complete, aligned family of `2^dim` siblings is
collapsed into its parent, which records the pre-pass index of its first
child; everything else passes through (an uncoarsenable octant has its marker
reset).  `ParaTree::getMapping` itself is translated from the source. -/

structure AOct where
  level : ℕ
  x : ℕ
  y : ℕ
  z : ℕ
  isNewR : Bool
  isNewC : Bool
  marker : ℤ
deriving DecidableEq

instance : Inhabited AOct := ⟨⟨0, 0, 0, 0, false, false, 0⟩⟩

/-- Modelled from the spec: Morton-ordered child anchor offsets (in units of
the child side length) for the `2^dim` children of a cell
(`TreeConstants` / `Octant::buildChildren`, sources not shipped). -/
def childOffsets (dim : ℕ) : List (ℕ × ℕ × ℕ) :=
  if dim = 3 then
    [(0, 0, 0), (1, 0, 0), (0, 1, 0), (1, 1, 0),
     (0, 0, 1), (1, 0, 1), (0, 1, 1), (1, 1, 1)]
  else
    [(0, 0, 0), (1, 0, 0), (0, 1, 0), (1, 1, 0)]

/-- Modelled from the spec: the `2^dim` children of an octant (spec §4.2):
child `k`'s anchor is the parent anchor plus `k`'s per-axis bits times the
child side length; children carry `new_by_refine`, inherit the balance state,
and take the decremented marker. -/
def refineOct (maxLevel dim : ℕ) (o : AOct) : List AOct :=
  (childOffsets dim).map (fun d =>
    { level := o.level + 1,
      x := o.x + d.1 * 2 ^ (maxLevel - (o.level + 1)),
      y := o.y + d.2.1 * 2 ^ (maxLevel - (o.level + 1)),
      z := o.z + d.2.2 * 2 ^ (maxLevel - (o.level + 1)),
      isNewR := true,
      isNewC := false,
      marker := o.marker - 1 })

/-- `c` is geometrically a child of `p`: one level deeper with its anchor
inside `p`'s cube. -/
abbrev isChild (maxLevel : ℕ) (c p : AOct) : Prop :=
  c.level = p.level + 1 ∧
  p.x ≤ c.x ∧ c.x < p.x + 2 ^ (maxLevel - p.level) ∧
  p.y ≤ c.y ∧ c.y < p.y + 2 ^ (maxLevel - p.level) ∧
  p.z ≤ c.z ∧ c.z < p.z + 2 ^ (maxLevel - p.level)

/-- Modelled from the spec: one global refine pass over the octant list, with
`j` the pre-pass index of the head octant.  Octants below `maxLevel` are
replaced by their children (each child paired with the parent's pre-pass
index, the value `LocalTree::refine` writes into `m_mapIdx` starting from the
identity map); octants at `maxLevel` survive unchanged (refinement past
`MAX_LEVEL` is clamped). -/
def globalRefineAux (maxLevel dim : ℕ) : ℕ → List AOct → List (AOct × ℕ)
  | _, [] => []
  | j, o :: rest =>
    (if o.level < maxLevel then (refineOct maxLevel dim o).map (fun c => (c, j))
     else [(o, j)]) ++ globalRefineAux maxLevel dim (j + 1) rest

/-- The per-octant preamble of `adaptGlobalRefine`: clear the new-by flags
(ParaTree.cpp 3731-3734) and force the marker to `+1` (the `globalRefine`
forcing). -/
def clearForRefine (o : AOct) : AOct :=
  { o with isNewR := false, isNewC := false, marker := 1 }

/-- `ParaTree::adaptGlobalRefine`, serial path: clear the new-by flags, set
every marker to `+1` (the `globalRefine` forcing), run the refine pass. -/
def adaptGlobalRefineModel (maxLevel dim : ℕ) (octs : List AOct) :
    List (AOct × ℕ) :=
  globalRefineAux maxLevel dim 0 (octs.map clearForRefine)

/-- The conceptual parent of a zero child: same anchor, one level up, flagged
`new_by_coarsen`, with the incremented marker. -/
def parentOf (o : AOct) : AOct :=
  { level := o.level - 1, x := o.x, y := o.y, z := o.z,
    isNewR := false, isNewC := true, marker := o.marker + 1 }

def anchorsEq (a b : AOct) : Bool :=
  a.level == b.level && a.x == b.x && a.y == b.y && a.z == b.z

/-- Modelled from the spec: the head octant `o` starts a complete, aligned,
coarsenable family: it is the zero child of its parent (anchor aligned to the
parent side), it and its `2^dim - 1` successors all carry marker `≤ -1`, and
the successors are exactly the remaining siblings in Morton order. -/
def familyComplete (maxLevel dim : ℕ) (o : AOct) (rest : List AOct) : Bool :=
  let sibs := refineOct maxLevel dim (parentOf o)
  decide (1 ≤ o.level) &&
  o.x % (2 * 2 ^ (maxLevel - o.level)) == 0 &&
  o.y % (2 * 2 ^ (maxLevel - o.level)) == 0 &&
  o.z % (2 * 2 ^ (maxLevel - o.level)) == 0 &&
  decide (o.marker ≤ -1) &&
  (rest.take (2 ^ dim - 1)).length == 2 ^ dim - 1 &&
  ((rest.take (2 ^ dim - 1)).zip sibs.tail).all
    (fun pq => anchorsEq pq.1 pq.2 && decide (pq.1.marker ≤ -1))

/-- Modelled from the spec: one global coarsen pass.  A complete family is
collapsed into its parent, which records the pre-pass index of the zero
child (the value `getMapping` later expands into the `2^dim` child indices);
an octant that cannot coarsen passes through with its marker reset. -/
def globalCoarseAux (maxLevel dim : ℕ) : ℕ → List AOct → List (AOct × ℕ)
  | _, [] => []
  | j, o :: rest =>
    if familyComplete maxLevel dim o rest then
      (parentOf o, j) ::
        globalCoarseAux maxLevel dim (j + 2 ^ dim) (rest.drop (2 ^ dim - 1))
    else
      ({ o with marker := 0 }, j) :: globalCoarseAux maxLevel dim (j + 1) rest
termination_by _ l => l.length
decreasing_by
  all_goals simp [List.length_drop]
  omega

/-- The per-octant preamble of `adaptGlobalCoarse`: clear the new-by flags
(ParaTree.cpp 3812-3815) and force the marker to `-1` (the `globalCoarse`
forcing). -/
def clearForCoarse (o : AOct) : AOct :=
  { o with isNewR := false, isNewC := false, marker := -1 }

/-- `ParaTree::adaptGlobalCoarse`, serial path: clear the new-by flags, set
every marker to `-1` (the `globalCoarse` forcing), run the coarsen pass.
(The trailing `balance21(false, true)` / refine fix-up acts on octants whose
markers were raised; after a global coarsen all markers are `0`, so on the
states quantified here it is the identity.) -/
def adaptGlobalCoarseModel (maxLevel dim : ℕ) (octs : List AOct) :
    List (AOct × ℕ) :=
  globalCoarseAux maxLevel dim 0 (octs.map clearForCoarse)

def nChildren (dim : ℕ) : ℕ := 2 ^ dim

/-- State read by `ParaTree::getMapping`: the post-adapt octant list,
`m_mapIdx`, and `m_octree.m_lastGhostBros`. -/
structure MapState where
  dim : ℕ
  octants : List AOct
  mapIdx : List ℕ
  lastGhostBros : List ℕ
deriving DecidableEq

/-- The post-adapt state assembled by the adapt functions from the pass
output. -/
def mkMapState (dim : ℕ) (pairs : List (AOct × ℕ)) : MapState :=
  ⟨dim, pairs.map Prod.fst, pairs.map Prod.snd, []⟩

/-- `ParaTree::getMapping(idx, mapper, isghost)` (ParaTree.cpp 3368-3407).
Throws (`none`) for an index outside `m_mapIdx`.  For a new-by-coarsen octant
it reconstructs the `2^dim` pre-adapt child indices from the stored index of
the first child, diverting the final `m_lastGhostBros.size()` entries to the
ghost-sibling list when `idx` is the last local octant; otherwise it returns
the single stored index with `isghost = false`. -/
def getMapping (s : MapState) (idx : ℕ) : Option (List ℕ × List Bool) :=
  if s.mapIdx.length ≤ idx then none
  else if (s.octants.getD idx default).isNewC then
    let nCh := nChildren s.dim
    let nInternal := if idx = s.octants.length - 1 then
        nCh - s.lastGhostBros.length
      else nCh
    some ((List.range nCh).map (fun i =>
            if i < nInternal then s.mapIdx.getD idx 0 + i
            else s.lastGhostBros.getD (i - nInternal) 0),
          (List.range nCh).map (fun i => decide (nInternal ≤ i)))
  else
    some ([s.mapIdx.getD idx 0], [false])

theorem childOffsets_le_one (dim : ℕ) (d : ℕ × ℕ × ℕ)
    (hd : d ∈ childOffsets dim) : d.1 ≤ 1 ∧ d.2.1 ≤ 1 ∧ d.2.2 ≤ 1 := by
  unfold childOffsets at hd
  split_ifs at hd <;> simp only [List.mem_cons, List.mem_singleton] at hd <;>
    rcases hd with h | h | h | h | h | h | h | h <;> simp_all

theorem childOffsets_length (dim : ℕ) (hdim : dim = 2 ∨ dim = 3) :
    (childOffsets dim).length = 2 ^ dim := by
  rcases hdim with h | h <;> subst h <;> decide

theorem refineOct_mem_isChild (maxLevel dim : ℕ) (p c : AOct)
    (hlt : p.level < maxLevel) (hc : c ∈ refineOct maxLevel dim p) :
    isChild maxLevel c p ∧ c.isNewR = true ∧ c.isNewC = false := by
  unfold refineOct at hc
  rw [List.mem_map] at hc
  obtain ⟨d, hd, rfl⟩ := hc
  obtain ⟨h1, h2, h3⟩ := childOffsets_le_one dim d hd
  have hpow : (2 : ℕ) ^ (maxLevel - (p.level + 1)) < 2 ^ (maxLevel - p.level) :=
    Nat.pow_lt_pow_right one_lt_two (by omega)
  have hx : d.1 * 2 ^ (maxLevel - (p.level + 1))
      ≤ 2 ^ (maxLevel - (p.level + 1)) := by
    calc d.1 * 2 ^ (maxLevel - (p.level + 1))
        ≤ 1 * 2 ^ (maxLevel - (p.level + 1)) :=
          Nat.mul_le_mul_right _ h1
      _ = 2 ^ (maxLevel - (p.level + 1)) := Nat.one_mul _
  have hy : d.2.1 * 2 ^ (maxLevel - (p.level + 1))
      ≤ 2 ^ (maxLevel - (p.level + 1)) := by
    calc d.2.1 * 2 ^ (maxLevel - (p.level + 1))
        ≤ 1 * 2 ^ (maxLevel - (p.level + 1)) :=
          Nat.mul_le_mul_right _ h2
      _ = 2 ^ (maxLevel - (p.level + 1)) := Nat.one_mul _
  have hz : d.2.2 * 2 ^ (maxLevel - (p.level + 1))
      ≤ 2 ^ (maxLevel - (p.level + 1)) := by
    calc d.2.2 * 2 ^ (maxLevel - (p.level + 1))
        ≤ 1 * 2 ^ (maxLevel - (p.level + 1)) :=
          Nat.mul_le_mul_right _ h3
      _ = 2 ^ (maxLevel - (p.level + 1)) := Nat.one_mul _
  refine ⟨⟨rfl, ?_, ?_, ?_, ?_, ?_, ?_⟩, rfl, rfl⟩
  · show p.x ≤ p.x + d.1 * 2 ^ (maxLevel - (p.level + 1))
    omega
  · show p.x + d.1 * 2 ^ (maxLevel - (p.level + 1))
        < p.x + 2 ^ (maxLevel - p.level)
    omega
  · show p.y ≤ p.y + d.2.1 * 2 ^ (maxLevel - (p.level + 1))
    omega
  · show p.y + d.2.1 * 2 ^ (maxLevel - (p.level + 1))
        < p.y + 2 ^ (maxLevel - p.level)
    omega
  · show p.z ≤ p.z + d.2.2 * 2 ^ (maxLevel - (p.level + 1))
    omega
  · show p.z + d.2.2 * 2 ^ (maxLevel - (p.level + 1))
        < p.z + 2 ^ (maxLevel - p.level)
    omega

/-- Positional description of the refine pass: the pair at output position
`idx` carries the pre-pass index `j` of the octant it came from, and is
either one of its children (an octant below `maxLevel`) or the octant
itself (clamped at `maxLevel`). -/
theorem globalRefineAux_getElem (maxLevel dim : ℕ) :
    ∀ (l : List AOct) (j0 idx : ℕ) (c : AOct) (j : ℕ),
      (globalRefineAux maxLevel dim j0 l)[idx]? = some (c, j) →
      j0 ≤ j ∧
      ∃ p, l[j - j0]? = some p ∧
        ((p.level < maxLevel ∧ c ∈ refineOct maxLevel dim p) ∨
         (¬ p.level < maxLevel ∧ c = p)) := by
  intro l
  induction l with
  | nil =>
    intro j0 idx c j h
    simp [globalRefineAux] at h
  | cons o rest ih =>
    intro j0 idx c j h
    rw [globalRefineAux] at h
    by_cases hlt : o.level < maxLevel
    · rw [if_pos hlt] at h
      by_cases hidx : idx < ((refineOct maxLevel dim o).map (fun c => (c, j0))).length
      · rw [List.getElem?_append_left hidx] at h
        rw [List.getElem?_map] at h
        match hh : (refineOct maxLevel dim o)[idx]? with
        | none => rw [hh] at h; simp at h
        | some c' =>
          rw [hh] at h
          have hcj : c' = c ∧ j0 = j := by simpa using h
          obtain ⟨hc, hj⟩ := hcj
          refine ⟨by omega, o, ?_, Or.inl ⟨hlt, ?_⟩⟩
          · rw [← hj]
            simp
          · rw [← hc]
            exact List.getElem?_mem hh
      · rw [List.getElem?_append_right (by omega)] at h
        obtain ⟨hj0, p, hp, hdisj⟩ := ih (j0 + 1) _ c j h
        refine ⟨by omega, p, ?_, hdisj⟩
        rw [show j - j0 = (j - (j0 + 1)) + 1 by omega]
        simpa using hp
    · rw [if_neg hlt] at h
      by_cases hidx : idx < 1
      · have hidx0 : idx = 0 := by omega
        subst hidx0
        rw [List.getElem?_append_left (by simp)] at h
        simp only [List.getElem?_cons_zero, Option.some.injEq, Prod.mk.injEq] at h
        obtain ⟨hc, hj⟩ := h
        refine ⟨by omega, o, ?_, Or.inr ⟨hlt, hc.symm⟩⟩
        rw [← hj]
        simp
      · rw [List.getElem?_append_right
          (by simp only [List.length_singleton]; omega)] at h
        obtain ⟨hj0, p, hp, hdisj⟩ := ih (j0 + 1) _ c j h
        refine ⟨by omega, p, ?_, hdisj⟩
        rw [show j - j0 = (j - (j0 + 1)) + 1 by omega]
        simpa using hp

theorem anchorsEq_fields (a b : AOct) (h : anchorsEq a b = true) :
    a.level = b.level ∧ a.x = b.x ∧ a.y = b.y ∧ a.z = b.z := by
  unfold anchorsEq at h
  simp only [Bool.and_eq_true, beq_iff_eq] at h
  exact ⟨h.1.1.1, h.1.1.2, h.1.2, h.2⟩

/-- The members of a complete family are geometric children of the parent the
family collapses into. -/
theorem familyComplete_children (maxLevel dim : ℕ) (hdim : dim = 2 ∨ dim = 3)
    (o : AOct) (rest : List AOct)
    (hfam : familyComplete maxLevel dim o rest = true)
    (hlev : o.level ≤ maxLevel) :
    ∀ i, i < 2 ^ dim → ∃ q, (o :: rest)[i]? = some q ∧
      isChild maxLevel q (parentOf o) := by
  unfold familyComplete at hfam
  simp only [Bool.and_eq_true, decide_eq_true_eq, beq_iff_eq,
    List.all_eq_true] at hfam
  obtain ⟨⟨⟨⟨⟨⟨hl1, _⟩, _⟩, _⟩, _⟩, hlen⟩, hall⟩ := hfam
  have hplt : (parentOf o).level < maxLevel := by
    unfold parentOf
    dsimp only
    omega
  have hslen : (refineOct maxLevel dim (parentOf o)).length = 2 ^ dim := by
    unfold refineOct
    rw [List.length_map]
    exact childOffsets_length dim hdim
  have hrlen : 2 ^ dim - 1 ≤ rest.length := by
    rw [List.length_take] at hlen
    omega
  intro i hi
  match i with
  | 0 =>
    have hpl : (parentOf o).level = o.level - 1 := rfl
    have hpx : (parentOf o).x = o.x := rfl
    have hpy : (parentOf o).y = o.y := rfl
    have hpz : (parentOf o).z = o.z := rfl
    have hpow : 0 < 2 ^ (maxLevel - (parentOf o).level) :=
      Nat.pos_pow_of_pos _ (by norm_num)
    exact ⟨o, by simp, by omega, by omega, by omega, by omega, by omega,
      by omega, by omega⟩
  | i' + 1 =>
    have hi' : i' < 2 ^ dim - 1 := by omega
    have hq : i' < rest.length := by omega
    have hs : i' + 1 < (refineOct maxLevel dim (parentOf o)).length := by omega
    have hst : i' < (refineOct maxLevel dim (parentOf o)).tail.length := by
      rw [List.length_tail]
      omega
    have ht : i' < (rest.take (2 ^ dim - 1)).length := by
      rw [List.length_take]
      omega
    have hzl : i' < ((rest.take (2 ^ dim - 1)).zip
        (refineOct maxLevel dim (parentOf o)).tail).length := by
      rw [List.length_zip]
      omega
    have hpair := hall _ (List.getElem_mem hzl)
    rw [List.getElem_zip] at hpair
    simp only [Bool.and_eq_true, decide_eq_true_eq] at hpair
    obtain ⟨hanch, _⟩ := hpair
    rw [List.getElem_take] at hanch
    have htail : (refineOct maxLevel dim (parentOf o)).tail[i'] =
        (refineOct maxLevel dim (parentOf o))[i' + 1] := by
      rw [List.getElem_tail]
    rw [htail] at hanch
    have hmem : (refineOct maxLevel dim (parentOf o))[i' + 1] ∈
        refineOct maxLevel dim (parentOf o) := List.getElem_mem hs
    obtain ⟨hchild, _, _⟩ :=
      refineOct_mem_isChild maxLevel dim (parentOf o) _ hplt hmem
    obtain ⟨ha1, ha2, ha3, ha4⟩ := anchorsEq_fields _ _ hanch
    refine ⟨rest[i'], ?_, ?_⟩
    · simp [List.getElem?_cons_succ, List.getElem?_eq_getElem hq]
    · obtain ⟨hc1, hc2, hc3, hc4, hc5, hc6, hc7⟩ := hchild
      exact ⟨by omega, by omega, by omega, by omega, by omega, by omega,
        by omega⟩

/-- Positional description of the coarsen pass: the pair at output position
`idx` carries the pre-pass index `j` of the octant it came from; the octant
either started a complete family collapsed into its parent, or passed
through with its marker reset. -/
theorem globalCoarseAux_getElem (maxLevel dim : ℕ) :
    ∀ (n : ℕ) (l : List AOct), l.length ≤ n →
      ∀ (j0 idx : ℕ) (c : AOct) (j : ℕ),
      (globalCoarseAux maxLevel dim j0 l)[idx]? = some (c, j) →
      j0 ≤ j ∧
      ∃ o, l[j - j0]? = some o ∧
        ((familyComplete maxLevel dim o (l.drop (j - j0 + 1)) = true ∧
          c = parentOf o) ∨
         c = { o with marker := 0 }) := by
  intro n
  induction n with
  | zero =>
    intro l hlen j0 idx c j h
    have : l = [] := List.length_eq_zero.mp (by omega)
    subst this
    simp [globalCoarseAux] at h
  | succ n ih =>
    intro l hlen j0 idx c j h
    match l with
    | [] => simp [globalCoarseAux] at h
    | o :: rest =>
      rw [globalCoarseAux] at h
      by_cases hfam : familyComplete maxLevel dim o rest = true
      · rw [if_pos hfam] at h
        match idx with
        | 0 =>
          simp only [List.getElem?_cons_zero, Option.some.injEq,
            Prod.mk.injEq] at h
          obtain ⟨hc, hj⟩ := h
          refine ⟨by omega, o, ?_, Or.inl ⟨?_, hc.symm⟩⟩
          · rw [← hj]
            simp
          · rw [← hj]
            simpa using hfam
        | idx' + 1 =>
          rw [List.getElem?_cons_succ] at h
          have hdlen : (rest.drop (2 ^ dim - 1)).length ≤ n := by
            rw [List.length_drop]
            simp only [List.length_cons] at hlen
            omega
          obtain ⟨hj0, o', ho', hdisj⟩ := ih _ hdlen _ _ _ _ h
          have h2pos : 1 ≤ 2 ^ dim := Nat.one_le_two_pow
          have hjj : 2 ^ dim ≤ j - j0 := by omega
          refine ⟨by omega, o', ?_, ?_⟩
          · rw [List.getElem?_drop] at ho'
            rw [show j - j0 = (2 ^ dim - 1 + (j - (j0 + 2 ^ dim))) + 1
              by omega]
            simpa using ho'
          · have hdd : (rest.drop (2 ^ dim - 1)).drop (j - (j0 + 2 ^ dim) + 1)
                = (o :: rest).drop (j - j0 + 1) := by
              rw [List.drop_drop]
              rw [show j - j0 + 1 = (2 ^ dim - 1 + (j - (j0 + 2 ^ dim) + 1)) + 1
                by omega]
              rw [List.drop_succ_cons]
            rwa [hdd] at hdisj
      · rw [if_neg hfam] at h
        match idx with
        | 0 =>
          simp only [List.getElem?_cons_zero, Option.some.injEq,
            Prod.mk.injEq] at h
          obtain ⟨hc, hj⟩ := h
          refine ⟨by omega, o, ?_, Or.inr hc.symm⟩
          rw [← hj]
          simp
        | idx' + 1 =>
          rw [List.getElem?_cons_succ] at h
          have hdlen : rest.length ≤ n := by
            simp only [List.length_cons] at hlen
            omega
          obtain ⟨hj0, o', ho', hdisj⟩ := ih _ hdlen _ _ _ _ h
          refine ⟨by omega, o', ?_, ?_⟩
          · rw [show j - j0 = (j - (j0 + 1)) + 1 by omega]
            simpa using ho'
          · have hdd : rest.drop (j - (j0 + 1) + 1)
                = (o :: rest).drop (j - j0 + 1) := by
              rw [show j - j0 + 1 = (j - (j0 + 1) + 1) + 1 by omega]
              simp
            rwa [hdd] at hdisj

theorem getMapping_not_newC (s : MapState) (idx : ℕ)
    (h1 : idx < s.mapIdx.length)
    (h2 : (s.octants.getD idx default).isNewC = false) :
    getMapping s idx = some ([s.mapIdx.getD idx 0], [false]) := by
  unfold getMapping
  have h2' : (s.octants[idx]?.getD default).isNewC = false := by
    rw [← List.getD_eq_getElem?_getD]
    exact h2
  rw [if_neg (by omega), if_neg (by simp [h2'])]

theorem getMapping_newC_serial (s : MapState) (idx : ℕ)
    (h1 : idx < s.mapIdx.length)
    (h2 : (s.octants.getD idx default).isNewC = true)
    (h3 : s.lastGhostBros = []) :
    getMapping s idx
      = some ((List.range (nChildren s.dim)).map
                (fun i => s.mapIdx.getD idx 0 + i),
              List.replicate (nChildren s.dim) false) := by
  unfold getMapping
  rw [if_neg (by omega), if_pos h2]
  simp only [h3, List.length_nil, Nat.sub_zero, ite_self, Option.some.injEq,
    Prod.mk.injEq]
  constructor
  · exact List.map_congr_left (fun i hi => by
      rw [if_pos (List.mem_range.mp hi)])
  · have h4 : (List.range (nChildren s.dim)).map
        (fun i => decide (nChildren s.dim ≤ i))
        = (List.range (nChildren s.dim)).map (fun _ => false) :=
      List.map_congr_left (fun i hi => by
        simp [Nat.not_le.mpr (List.mem_range.mp hi)])
    rw [h4, List.map_const']
    simp

/-- The flag-clearing and marker-forcing preamble of the global adapt
functions keeps every geometric field. -/
theorem isChild_of_coords (maxLevel : ℕ) (c p c' p' : AOct)
    (hc : c.level = c'.level ∧ c.x = c'.x ∧ c.y = c'.y ∧ c.z = c'.z)
    (hp : p.level = p'.level ∧ p.x = p'.x ∧ p.y = p'.y ∧ p.z = p'.z)
    (h : isChild maxLevel c p) : isChild maxLevel c' p' := by
  obtain ⟨e1, e2, e3, e4⟩ := hc
  obtain ⟨f1, f2, f3, f4⟩ := hp
  obtain ⟨h1, h2, h3, h4, h5, h6, h7⟩ := h
  refine ⟨?_, ?_, ?_, ?_, ?_, ?_, ?_⟩
  · rw [← e1, ← f1]; exact h1
  · rw [← e2, ← f2]; exact h2
  · rw [← e2, ← f2, ← f1]; exact h3
  · rw [← e3, ← f3]; exact h4
  · rw [← e3, ← f3, ← f1]; exact h5
  · rw [← e4, ← f4]; exact h6
  · rw [← e4, ← f4, ← f1]; exact h7

/-- C6: after `adaptGlobalRefine` with mapping enabled, `getMapping` on any
octant flagged new-by-refine returns exactly one old index, the pre-adapt
index of its parent, with `is_ghost = false`; after `adaptGlobalCoarse` with
mapping enabled, `getMapping` on any octant flagged new-by-coarsen returns
exactly `2^dim` old indices, each the pre-adapt index of one of its children,
all with `is_ghost = false` (there are no ghost siblings in the serial
setting modelled here). -/
theorem adaptGlobal_mapping_roundtrip (maxLevel dim : ℕ)
    (octsR octsC : List AOct)
    (hdim : dim = 2 ∨ dim = 3)
    (hlev : ∀ o ∈ octsC, o.level ≤ maxLevel) :
    (∀ idx c,
      (mkMapState dim (adaptGlobalRefineModel maxLevel dim octsR)).octants[idx]?
          = some c →
      c.isNewR = true →
      ∃ j p, octsR[j]? = some p ∧
        getMapping (mkMapState dim (adaptGlobalRefineModel maxLevel dim octsR))
          idx = some ([j], [false]) ∧
        isChild maxLevel c p) ∧
    (∀ idx c,
      (mkMapState dim (adaptGlobalCoarseModel maxLevel dim octsC)).octants[idx]?
          = some c →
      c.isNewC = true →
      ∃ j,
        getMapping (mkMapState dim (adaptGlobalCoarseModel maxLevel dim octsC))
          idx = some ((List.range (nChildren dim)).map (fun i => j + i),
                      List.replicate (nChildren dim) false) ∧
        ∀ i, i < nChildren dim →
          ∃ q, octsC[j + i]? = some q ∧ isChild maxLevel q c) := by
  constructor
  · -- refine direction
    intro idx c hoct hnewR
    simp only [mkMapState, List.getElem?_map] at hoct
    match hpr : (adaptGlobalRefineModel maxLevel dim octsR)[idx]? with
    | none => rw [hpr] at hoct; simp at hoct
    | some pr =>
      rw [hpr] at hoct
      simp only [Option.map_some'] at hoct
      have hc : pr.1 = c := by
        have := hoct
        simp only [Option.some.injEq] at this
        exact this
      have hidx : idx < (adaptGlobalRefineModel maxLevel dim octsR).length :=
        (List.getElem?_eq_some.mp hpr).1
      have hpr' : (adaptGlobalRefineModel maxLevel dim octsR)[idx]?
          = some (c, pr.2) := by
        rw [hpr, ← hc]
      obtain ⟨_, p', hp', hdisj⟩ :=
        globalRefineAux_getElem maxLevel dim _ 0 idx c pr.2 hpr'
      rw [Nat.sub_zero, List.getElem?_map] at hp'
      match hpo : octsR[pr.2]? with
      | none => rw [hpo] at hp'; simp at hp'
      | some p =>
        rw [hpo] at hp'
        simp only [Option.map_some', Option.some.injEq] at hp'
        rcases hdisj with ⟨hplt, hmem⟩ | ⟨_, hceq⟩
        · obtain ⟨hchild, _, hnc⟩ :=
            refineOct_mem_isChild maxLevel dim p' c hplt hmem
          refine ⟨pr.2, p, hpo, ?_, ?_⟩
          · have hmlen : idx <
                (mkMapState dim (adaptGlobalRefineModel maxLevel dim
                  octsR)).mapIdx.length := by
              simp only [mkMapState, List.length_map]
              exact hidx
            rw [getMapping_not_newC _ idx hmlen ?_]
            · have hgd : (mkMapState dim (adaptGlobalRefineModel maxLevel dim
                  octsR)).mapIdx.getD idx 0 = pr.2 := by
                simp only [mkMapState, List.getD_eq_getElem?_getD,
                  List.getElem?_map, hpr, Option.map_some', Option.getD_some]
              rw [hgd]
            · have hgo : (mkMapState dim (adaptGlobalRefineModel maxLevel dim
                  octsR)).octants.getD idx default = c := by
                simp only [mkMapState, List.getD_eq_getElem?_getD,
                  List.getElem?_map, hpr, Option.map_some', Option.getD_some,
                  hc]
              rw [hgo, hnc]
          · refine isChild_of_coords maxLevel c p' c p ⟨rfl, rfl, rfl, rfl⟩
              ?_ hchild
            rw [← hp']
            exact ⟨rfl, rfl, rfl, rfl⟩
        · exfalso
          have : c.isNewR = false := by
            rw [hceq, ← hp']
            rfl
          rw [this] at hnewR
          exact Bool.false_ne_true hnewR
  · -- coarsen direction
    intro idx c hoct hnewC
    simp only [mkMapState, List.getElem?_map] at hoct
    match hpr : (adaptGlobalCoarseModel maxLevel dim octsC)[idx]? with
    | none => rw [hpr] at hoct; simp at hoct
    | some pr =>
      rw [hpr] at hoct
      simp only [Option.map_some', Option.some.injEq] at hoct
      have hidx : idx < (adaptGlobalCoarseModel maxLevel dim octsC).length :=
        (List.getElem?_eq_some.mp hpr).1
      have hpr' : (adaptGlobalCoarseModel maxLevel dim octsC)[idx]?
          = some (c, pr.2) := by
        rw [hpr, ← hoct]
      obtain ⟨_, o, ho, hdisj⟩ := globalCoarseAux_getElem maxLevel dim
        (octsC.map clearForCoarse).length _ (le_refl _) 0 idx c pr.2 hpr'
      rw [Nat.sub_zero] at ho hdisj
      rcases hdisj with ⟨hfam, hceq⟩ | hceq
      · -- the family case
        match hpo : octsC[pr.2]? with
        | none =>
          rw [List.getElem?_map, hpo] at ho
          simp at ho
        | some q0 =>
          have ho' : clearForCoarse q0 = o := by
            rw [List.getElem?_map, hpo] at ho
            simp only [Option.map_some', Option.some.injEq] at ho
            exact ho
          have holev : o.level ≤ maxLevel := by
            rw [← ho']
            exact hlev q0 (List.getElem?_mem hpo)
          have hchildren := familyComplete_children maxLevel dim hdim o _
            hfam holev
          refine ⟨pr.2, ?_, ?_⟩
          · have hmlen : idx <
                (mkMapState dim (adaptGlobalCoarseModel maxLevel dim
                  octsC)).mapIdx.length := by
              simp only [mkMapState, List.length_map]
              exact hidx
            have hgo : (mkMapState dim (adaptGlobalCoarseModel maxLevel dim
                octsC)).octants.getD idx default = c := by
              simp only [mkMapState, List.getD_eq_getElem?_getD,
                List.getElem?_map, hpr, Option.map_some', Option.getD_some,
                hoct]
            have hgd : (mkMapState dim (adaptGlobalCoarseModel maxLevel dim
                octsC)).mapIdx.getD idx 0 = pr.2 := by
              simp only [mkMapState, List.getD_eq_getElem?_getD,
                List.getElem?_map, hpr, Option.map_some', Option.getD_some]
            rw [getMapping_newC_serial _ idx hmlen (by rw [hgo, hceq]; rfl)
              rfl, hgd]
            rfl
          · intro i hi
            obtain ⟨q', hq', hchild⟩ := hchildren i hi
            have hlm : (octsC.map clearForCoarse).drop pr.2
                = o :: (octsC.map clearForCoarse).drop (pr.2 + 1) := by
              have hlt : pr.2 < (octsC.map clearForCoarse).length :=
                (List.getElem?_eq_some.mp ho).1
              rw [List.drop_eq_getElem_cons hlt]
              congr 1
              have h2 := (List.getElem?_eq_some.mp ho).2
              simpa using h2
            have hq'' : (octsC.map clearForCoarse)[pr.2 + i]? = some q' := by
              rw [← List.getElem?_drop, hlm]
              exact hq'
            rw [List.getElem?_map] at hq''
            match hqo : octsC[pr.2 + i]? with
            | none => rw [hqo] at hq''; simp at hq''
            | some q =>
              rw [hqo] at hq''
              simp only [Option.map_some', Option.some.injEq] at hq''
              refine ⟨q, rfl, ?_⟩
              refine isChild_of_coords maxLevel q' (parentOf o) q c ?_ ?_
                hchild
              · rw [← hq'']
                exact ⟨rfl, rfl, rfl, rfl⟩
              · rw [hceq]
                exact ⟨rfl, rfl, rfl, rfl⟩
      · -- the pass-through case cannot carry the new-by-coarsen flag
        exfalso
        match hpo : octsC[pr.2]? with
        | none =>
          rw [List.getElem?_map, hpo] at ho
          simp at ho
        | some q0 =>
          have ho' : clearForCoarse q0 = o := by
            rw [List.getElem?_map, hpo] at ho
            simp only [Option.map_some', Option.some.injEq] at ho
            exact ho
          have : c.isNewC = false := by
            rw [hceq, ← ho']
            rfl
          rw [this] at hnewC
          exact Bool.false_ne_true hnewC

/-- Witness for C6: `maxLevel = 3`, `dim = 2`; refine the single root octant
(its four children must each map back to old index 0), coarsen the four
children of the root (the new parent must map back to old indices 0-3). -/
theorem adaptGlobal_mapping_roundtrip_witness :
    ((2 : ℕ) = 2 ∨ (2 : ℕ) = 3) ∧
    (∀ o ∈ [⟨1, 0, 0, 0, false, false, 0⟩, ⟨1, 4, 0, 0, false, false, 0⟩,
            ⟨1, 0, 4, 0, false, false, 0⟩, ⟨1, 4, 4, 0, false, false, 0⟩],
      AOct.level o ≤ 3) ∧
    ((∀ idx c,
      (mkMapState 2 (adaptGlobalRefineModel 3 2
          [⟨0, 0, 0, 0, false, false, 0⟩])).octants[idx]? = some c →
      c.isNewR = true →
      ∃ j p, [(⟨0, 0, 0, 0, false, false, 0⟩ : AOct)][j]? = some p ∧
        getMapping (mkMapState 2 (adaptGlobalRefineModel 3 2
          [⟨0, 0, 0, 0, false, false, 0⟩])) idx = some ([j], [false]) ∧
        isChild 3 c p) ∧
    (∀ idx c,
      (mkMapState 2 (adaptGlobalCoarseModel 3 2
          [⟨1, 0, 0, 0, false, false, 0⟩, ⟨1, 4, 0, 0, false, false, 0⟩,
           ⟨1, 0, 4, 0, false, false, 0⟩,
           ⟨1, 4, 4, 0, false, false, 0⟩])).octants[idx]? = some c →
      c.isNewC = true →
      ∃ j,
        getMapping (mkMapState 2 (adaptGlobalCoarseModel 3 2
          [⟨1, 0, 0, 0, false, false, 0⟩, ⟨1, 4, 0, 0, false, false, 0⟩,
           ⟨1, 0, 4, 0, false, false, 0⟩,
           ⟨1, 4, 4, 0, false, false, 0⟩])) idx
          = some ((List.range (nChildren 2)).map (fun i => j + i),
                  List.replicate (nChildren 2) false) ∧
        ∀ i, i < nChildren 2 →
          ∃ q, [(⟨1, 0, 0, 0, false, false, 0⟩ : AOct),
                ⟨1, 4, 0, 0, false, false, 0⟩, ⟨1, 0, 4, 0, false, false, 0⟩,
                ⟨1, 4, 4, 0, false, false, 0⟩][j + i]? = some q ∧
            isChild 3 q c)) :=
  ⟨by decide, by decide,
   adaptGlobal_mapping_roundtrip 3 2 [⟨0, 0, 0, 0, false, false, 0⟩]
     [⟨1, 0, 0, 0, false, false, 0⟩, ⟨1, 4, 0, 0, false, false, 0⟩,
      ⟨1, 0, 4, 0, false, false, 0⟩, ⟨1, 4, 4, 0, false, false, 0⟩]
     (by decide) (by decide)⟩

/-! ## Family-compact partition
(`ParaTree::computePartition(uint8_t, const dvector*, uint32_t*)`,
ParaTree.cpp lines 4798-4960)

The function first computes the unconstrained partition `partition_temp`
(uniform or weighted, taken here as the argument `temp`), then, for each
incoming inter-rank boundary, searches the octant sequence of the rank
currently owning the boundary forward and backward for the nearest position
aligned to a family block of side `Dh = 2^(maxLevel - level)` and corrects
the boundary by the smaller displacement (`deplace`); when a search runs off
the rank's octants it falls back to the local octant count.  Every rank's
corrections are broadcast, so the sequential model below computes each
boundary's correction against the global octant sequence restricted to the
owner's slice.  The final counts are assembled in `uint32_t` arithmetic:
`partition[i] = partition_temp[i] + deplace[i] - deplace[i-1]`, which the
model writes as an explicit reduction `% 2^32`. -/

/-- `level = min(max(maxDepth - level_, 1), maxLevel)` (line 4815);
`m_maxDepth` is a signed `int8_t`. -/
def usedLevel (maxLevel : ℕ) (maxDepth : ℤ) (lvl : ℕ) : ℕ :=
  (min (max (maxDepth - lvl) 1) maxLevel).toNat

/-- The alignment residue of an octant with respect to the family block side
`Dh` (lines 4878-4881): `x % Dh + y % Dh (+ z % Dh in 3D)`. -/
def restOf (dim Dh : ℕ) (o : AOct) : ℕ :=
  o.x % Dh + o.y % Dh + (if dim = 3 then o.z % Dh else 0)

/-- The owner search `while (sum > m_partitionRangeGlobalIdx[j]) j++;`
(lines 4837-4839); `j` persists across boundaries. -/
def ownerScan (range : List ℕ) (sum : ℕ) : ℕ → ℕ → ℕ
  | 0, j => j
  | fuel + 1, j =>
    if range.getD j 0 < sum then ownerScan range sum fuel (j + 1) else j

/-- First global index owned by rank `r`. -/
def rankLo (range : List ℕ) (r : ℕ) : ℕ :=
  if r = 0 then 0 else range.getD (r - 1) 0 + 1

/-- `nocts` of rank `r` (its local octant count). -/
def rankNocts (range : List ℕ) (r : ℕ) : ℕ :=
  range.getD r 0 + 1 - rankLo range r

/-- The forward search (lines 4885-4898): advance while the residue is
non-zero; falling off the end sets `i = istart + nocts`, so the returned
correction is the local octant count. -/
def scanForward (restf : ℕ → ℕ) (nocts istart : ℕ) : ℕ → ℕ → ℕ
  | 0, i => i
  | fuel + 1, i =>
    if restf i ≠ 0 then
      if i = nocts - 1 then istart + nocts
      else scanForward restf nocts istart fuel (i + 1)
    else i

/-- The backward search (lines 4901-4919).  The C++ runs it on `uint32_t`
indices and the fall-off case computes `istart - nocts`, which wraps; the
subsequent `backw = istart - i` wraps back, so the value of `backw` equals
the signed computation modelled here (`backw ∈ [0, nocts]`). -/
def scanBackward (restf : ℕ → ℕ) (nocts istart : ℕ) : ℕ → ℕ → ℤ
  | 0, i => i
  | fuel + 1, i =>
    if restf i ≠ 0 then
      if i = 0 then (istart : ℤ) - nocts
      else scanBackward restf nocts istart fuel (i - 1)
    else i

/-- One boundary's correction: forward and backward searches from the last
octant at the incoming boundary on the owning rank; the smaller displacement
wins, backward displacements are negative (lines 4856-4931). -/
def boundaryDeplace (dim Dh : ℕ) (octs : List AOct) (range : List ℕ)
    (r sum : ℕ) : ℤ :=
  let istart := if r = 0 then sum else sum - range.getD (r - 1) 0 - 1
  let lo := rankLo range r
  let nocts := rankNocts range r
  let restf := fun i => restOf dim Dh (octs.getD (lo + i) default)
  let forw := scanForward restf nocts istart (nocts + 1) istart - istart
  let backw := (istart : ℤ) - scanBackward restf nocts istart (nocts + 1) istart
  if (forw : ℤ) < backw then (forw : ℤ) else -backw

/-- The per-boundary loop: walk the boundaries (one per entry of
`temp.take (P-1)`), carrying the running `sum` of target counts and the
persistent owner pointer `j`. -/
def deplaceGo (dim Dh : ℕ) (octs : List AOct) (range : List ℕ) :
    List ℕ → ℕ → ℕ → List ℤ
  | [], _, _ => []
  | t :: ts, j, sum =>
    let sum' := sum + t
    let j' := ownerScan range sum' (range.length + 1) j
    boundaryDeplace dim Dh octs range j' sum' ::
      deplaceGo dim Dh octs range ts j' sum'

def computeDeplace (dim maxLevel : ℕ) (maxDepth : ℤ) (lvl : ℕ)
    (octs : List AOct) (range temp : List ℕ) : List ℤ :=
  let level := usedLevel maxLevel maxDepth lvl
  let Dh := 2 ^ (maxLevel - level)
  deplaceGo dim Dh octs range (temp.take (temp.length - 1)) 0 0

/-- The signed (pre-wrap) corrected count of rank `i`:
`partition_temp[i] + deplace[i] - deplace[i-1]` with the boundary cases of
lines 4946-4953. -/
def correctedZ (temp : List ℕ) (dep : List ℤ) (i : ℕ) : ℤ :=
  (temp.getD i 0 : ℤ) + (if i < temp.length - 1 then dep.getD i 0 else 0)
    - (if 0 < i then dep.getD (i - 1) 0 else 0)

/-- The stored `uint32_t` counts. -/
def applyDeplace (temp : List ℕ) (dep : List ℤ) : List ℕ :=
  (List.range temp.length).map (fun i =>
    (correctedZ temp dep i % 2 ^ 32).toNat)

def computePartitionFamilyCompact (dim maxLevel : ℕ) (maxDepth : ℤ)
    (lvl : ℕ) (octs : List AOct) (range temp : List ℕ) : List ℕ :=
  applyDeplace temp (computeDeplace dim maxLevel maxDepth lvl octs range temp)

theorem correctedZ_sum (temp : List ℕ) (dep : List ℤ) :
    (∑ i ∈ Finset.range temp.length, correctedZ temp dep i)
      = (temp.sum : ℤ) := by
  unfold correctedZ
  rw [Finset.sum_sub_distrib, Finset.sum_add_distrib]
  have h1 : (∑ i ∈ Finset.range temp.length, ((temp.getD i 0 : ℤ)))
      = (temp.sum : ℤ) := by
    induction temp with
    | nil => simp
    | cons a l ih =>
      rw [List.length_cons, Finset.sum_range_succ', List.sum_cons]
      simp only [List.getD_cons_succ, List.getD_cons_zero]
      rw [ih]
      push_cast
      ring
  have h2 : (∑ i ∈ Finset.range temp.length,
      (if i < temp.length - 1 then dep.getD i 0 else 0))
      = ∑ i ∈ Finset.range (temp.length - 1), dep.getD i 0 := by
    match hl : temp.length with
    | 0 => simp
    | n + 1 =>
      rw [Finset.sum_range_succ]
      simp only [Nat.add_sub_cancel]
      rw [Finset.sum_congr rfl (fun i hi => if_pos (Finset.mem_range.mp hi))]
      simp
  have h3 : (∑ i ∈ Finset.range temp.length,
      (if 0 < i then dep.getD (i - 1) 0 else 0))
      = ∑ i ∈ Finset.range (temp.length - 1), dep.getD i 0 := by
    match hl : temp.length with
    | 0 => simp
    | n + 1 =>
      rw [Finset.sum_range_succ']
      simp only [Nat.add_sub_cancel, Nat.lt_irrefl, if_false,
        Nat.zero_lt_succ, if_true, Nat.succ_sub_one]
      simp
  rw [h1, h2, h3]
  ring

theorem applyDeplace_sum_mod (temp : List ℕ) (dep : List ℤ) :
    ((applyDeplace temp dep).sum : ℤ) % 2 ^ 32 = (temp.sum : ℤ) % 2 ^ 32 := by
  have hM : (0 : ℤ) < 2 ^ 32 := by norm_num
  have hcast : ((applyDeplace temp dep).sum : ℤ)
      = ∑ i ∈ Finset.range temp.length, correctedZ temp dep i % 2 ^ 32
      := by
    unfold applyDeplace
    have hbr : ((List.range temp.length).map (fun i =>
        (correctedZ temp dep i % 2 ^ 32).toNat)).sum
        = ∑ i ∈ Finset.range temp.length,
            (correctedZ temp dep i % 2 ^ 32).toNat := rfl
    rw [hbr]
    push_cast
    refine Finset.sum_congr rfl (fun i _ => ?_)
    exact Int.toNat_of_nonneg (Int.emod_nonneg _ (by norm_num))
  rw [hcast, ← Finset.sum_int_mod, correctedZ_sum]

theorem applyDeplace_sum_exact (temp : List ℕ) (dep : List ℤ)
    (h : ∀ i, i < temp.length →
      0 ≤ correctedZ temp dep i ∧ correctedZ temp dep i < 2 ^ 32) :
    (applyDeplace temp dep).sum = temp.sum := by
  have hcast : ((applyDeplace temp dep).sum : ℤ)
      = ∑ i ∈ Finset.range temp.length, correctedZ temp dep i % 2 ^ 32
      := by
    unfold applyDeplace
    have hbr : ((List.range temp.length).map (fun i =>
        (correctedZ temp dep i % 2 ^ 32).toNat)).sum
        = ∑ i ∈ Finset.range temp.length,
            (correctedZ temp dep i % 2 ^ 32).toNat := rfl
    rw [hbr]
    push_cast
    refine Finset.sum_congr rfl (fun i _ => ?_)
    exact Int.toNat_of_nonneg (Int.emod_nonneg _ (by norm_num))
  have heq : (∑ i ∈ Finset.range temp.length,
      correctedZ temp dep i % 2 ^ 32)
      = ∑ i ∈ Finset.range temp.length, correctedZ temp dep i := by
    refine Finset.sum_congr rfl (fun i hi => ?_)
    obtain ⟨h0, h1⟩ := h i (Finset.mem_range.mp hi)
    exact Int.emod_eq_of_lt h0 h1
  have := hcast.trans (heq.trans (correctedZ_sum temp dep))
  exact_mod_cast this

/-- A valid 16-octant 2D linear octree (unit square, Morton order,
`maxLevel = 20`): the root was refined, the quadrant at `(h, 0)` with
`h = 2^19` was refined, and its three non-first children were refined again
(`maxDepth = 3`).  Writing `q = 2^18`, `r = 2^17`, the cells at global
indices 2-13 all have an anchor coordinate not divisible by `Dh = 2^19`,
i.e. the rank owning exactly those 12 cells holds no `level = 1` family
boundary at all.  Here rank 0 owns indices 0-1, rank 1 owns 2-13 and
rank 2 owns 14-15 (`m_partitionRangeGlobalIdx = [1, 13, 15]`), a
distribution a prior weighted load balance can produce. -/
def fcOcts : List AOct :=
  [⟨1, 0, 0, 0, false, false, 0⟩,
   ⟨2, 524288, 0, 0, false, false, 0⟩,
   ⟨3, 786432, 0, 0, false, false, 0⟩,
   ⟨3, 917504, 0, 0, false, false, 0⟩,
   ⟨3, 786432, 131072, 0, false, false, 0⟩,
   ⟨3, 917504, 131072, 0, false, false, 0⟩,
   ⟨3, 524288, 262144, 0, false, false, 0⟩,
   ⟨3, 655360, 262144, 0, false, false, 0⟩,
   ⟨3, 524288, 393216, 0, false, false, 0⟩,
   ⟨3, 655360, 393216, 0, false, false, 0⟩,
   ⟨3, 786432, 262144, 0, false, false, 0⟩,
   ⟨3, 917504, 262144, 0, false, false, 0⟩,
   ⟨3, 786432, 393216, 0, false, false, 0⟩,
   ⟨3, 917504, 393216, 0, false, false, 0⟩,
   ⟨1, 0, 524288, 0, false, false, 0⟩,
   ⟨1, 524288, 524288, 0, false, false, 0⟩]

/-- C4 counterexample: on `fcOcts` with three ranks, uniform targets
`[6, 5, 5]` and family-compact level `level_ = 2` (`level = 1`,
`Dh = 2^19`), both boundary searches on rank 1 fall back to the local
octant count 12, giving `deplace = [-12, -12]`; the corrected count of
rank 0 underflows (`6 - 12 = -6`) and is stored as `2^32 - 6`, so the
counts `[4294967290, 5, 17]` sum to `2^32 + 16`, not to the global octant
count 16 — load balancing with the family-compact strategy does not
conserve the total octant count on this state. -/
theorem computePartition_familyCompact_not_conserving :
    fcOcts.length = 16 ∧
    (computePartitionUniform 16 3).sum = 16 ∧
    computeDeplace 2 20 3 2 fcOcts [1, 13, 15] (computePartitionUniform 16 3)
      = [-12, -12] ∧
    computePartitionFamilyCompact 2 20 3 2 fcOcts [1, 13, 15]
        (computePartitionUniform 16 3)
      = [4294967290, 5, 17] ∧
    (computePartitionFamilyCompact 2 20 3 2 fcOcts [1, 13, 15]
        (computePartitionUniform 16 3)).sum = 2 ^ 32 + 16 ∧
    ¬ (computePartitionFamilyCompact 2 20 3 2 fcOcts [1, 13, 15]
        (computePartitionUniform 16 3)).sum = 16 := by
  refine ⟨rfl, rfl, ?_, ?_, ?_, ?_⟩ <;> decide

/-- C4 (amended): the load-balance target partitions conserve the octant
count as follows.  The uniform and weighted strategies produce counts
summing exactly to the global octant count `N`.  The family-compact
correction conserves the *signed* total (the corrections telescope), so the
stored `uint32_t` counts always sum to `temp.sum` modulo `2^32`, and they
sum to exactly `temp.sum` whenever every corrected count is non-negative
and below `2^32`; on states where a correction drives a count negative
(see `computePartition_familyCompact_not_conserving`, including the
fallback to the local octant count) the stored counts do not sum to `N`. -/
theorem loadBalance_partition_conservation (N P : ℕ) (hP : 0 < P)
    (w : ℕ → ℚ) (dim maxLevel : ℕ) (maxDepth : ℤ) (lvl : ℕ)
    (octs : List AOct) (range temp : List ℕ) :
    (computePartitionUniform N P).sum = N ∧
    (computePartitionWeighted w N P).sum = N ∧
    ((computePartitionFamilyCompact dim maxLevel maxDepth lvl octs range
        temp).sum : ℤ) % 2 ^ 32 = (temp.sum : ℤ) % 2 ^ 32 ∧
    ((∀ i, i < temp.length →
        0 ≤ correctedZ temp
            (computeDeplace dim maxLevel maxDepth lvl octs range temp) i ∧
        correctedZ temp
            (computeDeplace dim maxLevel maxDepth lvl octs range temp) i
          < 2 ^ 32) →
      (computePartitionFamilyCompact dim maxLevel maxDepth lvl octs range
        temp).sum = temp.sum) :=
  ⟨computePartitionUniform_sum N P hP,
   computePartitionWeighted_sum w N P,
   applyDeplace_sum_mod temp _,
   fun h => applyDeplace_sum_exact temp _ h⟩

/-- Witness for C4 at a 4-octant aligned tree on two ranks. -/
theorem loadBalance_partition_conservation_witness :
    0 < 2 ∧
    ((computePartitionUniform 4 2).sum = 4 ∧
     (computePartitionWeighted (fun _ => (1 : ℚ)) 4 2).sum = 4 ∧
     ((computePartitionFamilyCompact 2 2 1 0
        [⟨1, 0, 0, 0, false, false, 0⟩, ⟨1, 2, 0, 0, false, false, 0⟩,
         ⟨1, 0, 2, 0, false, false, 0⟩, ⟨1, 2, 2, 0, false, false, 0⟩]
        [1, 3] [2, 2]).sum : ℤ) % 2 ^ 32 = (([2, 2] : List ℕ).sum : ℤ)
          % 2 ^ 32 ∧
     ((∀ i, i < ([2, 2] : List ℕ).length →
        0 ≤ correctedZ [2, 2] (computeDeplace 2 2 1 0
            [⟨1, 0, 0, 0, false, false, 0⟩, ⟨1, 2, 0, 0, false, false, 0⟩,
             ⟨1, 0, 2, 0, false, false, 0⟩, ⟨1, 2, 2, 0, false, false, 0⟩]
            [1, 3] [2, 2]) i ∧
        correctedZ [2, 2] (computeDeplace 2 2 1 0
            [⟨1, 0, 0, 0, false, false, 0⟩, ⟨1, 2, 0, 0, false, false, 0⟩,
             ⟨1, 0, 2, 0, false, false, 0⟩, ⟨1, 2, 2, 0, false, false, 0⟩]
            [1, 3] [2, 2]) i < 2 ^ 32) →
      (computePartitionFamilyCompact 2 2 1 0
        [⟨1, 0, 0, 0, false, false, 0⟩, ⟨1, 2, 0, 0, false, false, 0⟩,
         ⟨1, 0, 2, 0, false, false, 0⟩, ⟨1, 2, 2, 0, false, false, 0⟩]
        [1, 3] [2, 2]).sum = ([2, 2] : List ℕ).sum)) :=
  ⟨by decide, loadBalance_partition_conservation 4 2 (by decide)
    (fun _ => (1 : ℚ)) 2 2 1 0
    [⟨1, 0, 0, 0, false, false, 0⟩, ⟨1, 2, 0, 0, false, false, 0⟩,
     ⟨1, 0, 2, 0, false, false, 0⟩, ⟨1, 2, 2, 0, false, false, 0⟩]
    [1, 3] [2, 2]⟩

/-! ## Snapshot dump / restore (`ParaTree::dump` 502-580,
`ParaTree::restore` 588-748, with `ParaTree::reinitialize` 424-435,
`ParaTree::_initialize` 336-355, `ParaTree::_initializePartitions` 315-330,
`ParaTree::reset(bool)` 454-479)

The binary stream is modelled as a list of typed values (one entry per
`utils::binary::write` / `read` call), booleans encoded as 0/1.  The reading
helper is in sources not shipped here; per the spec's failure semantics a
read past the end of the stream raises the truncated-stream error
(`SnapshotCorrupt`).  `restore` is modelled in state-passing style: the
returned state is the receiver's state when the call returns or throws, so
the theorems can speak about what a failed restore leaves behind.  The model
covers the serial engine (the `computeGhostHalo` collective executed for
parallel dumps rebuilds `m_octree` ghost data not represented here). -/

structure SnapOct where
  level : ℕ
  x : ℕ
  y : ℕ
  z : ℕ
  ghostLayer : ℤ
  info : List Bool
  balance : Bool
  marker : ℤ
deriving DecidableEq

structure PTState where
  nproc : ℕ
  dim : ℕ
  serial : Bool
  nofGhostLayers : ℕ
  maxDepth : ℤ
  status : ℕ
  balanceCodim : ℕ
  periodic : List Bool
  octants : List SnapOct
  globalNumOctants : ℕ
  partitionFirstDesc : List ℕ
  partitionLastDesc : List ℕ
  partitionRangeGlobalIdx : List ℕ
  partitionRangeGlobalIdx0 : List ℕ
  lastOp : TreeOp
  mapIdx : List ℕ
  lastGhostBros : List ℕ
deriving DecidableEq

def boolTok (b : Bool) : ℤ := if b then 1 else 0

/-- Modelled from the spec: the integer value of the `Operation` enumerator
(`ParaTree.hpp`, not shipped); any fixed injective encoding represents the
enum faithfully for dump/restore. -/
def opCode : TreeOp → ℤ
  | TreeOp.init => 0
  | TreeOp.adaptMapped => 1
  | TreeOp.adaptUnmapped => 2
  | TreeOp.loadBalance => 3
  | TreeOp.loadBalanceFirst => 4
  | TreeOp.preAdapt => 5

def decodeOp (z : ℤ) : TreeOp :=
  if z = 1 then TreeOp.adaptMapped
  else if z = 2 then TreeOp.adaptUnmapped
  else if z = 3 then TreeOp.loadBalance
  else if z = 4 then TreeOp.loadBalanceFirst
  else if z = 5 then TreeOp.preAdapt
  else TreeOp.init

/-- One octant's dump record (ParaTree.cpp 529-544). -/
def dumpOct (o : SnapOct) : List ℤ :=
  [(o.level : ℤ), (o.x : ℤ), (o.y : ℤ), (o.z : ℤ), o.ghostLayer]
    ++ o.info.map boolTok ++ [boolTok o.balance, o.marker]

/-- `ParaTree::dump`.  The octant counts are written as `uint32_t` — the
global count (a `uint64_t`) is truncated into a `uint32_t` local variable
before being written (line 526), hence the `% 2^32`. -/
def dump (s : PTState) (full : Bool) : List ℤ :=
  [1, (s.nproc : ℤ), (s.dim : ℤ), boolTok s.serial, (s.nofGhostLayers : ℤ),
   s.maxDepth, (s.status : ℤ), (s.balanceCodim : ℤ)]
    ++ s.periodic.map boolTok
    ++ [((s.octants.length % 2 ^ 32 : ℕ) : ℤ),
        ((s.globalNumOctants % 2 ^ 32 : ℕ) : ℤ)]
    ++ s.octants.flatMap dumpOct
    ++ s.partitionFirstDesc.map (fun v => (v : ℤ))
    ++ s.partitionLastDesc.map (fun v => (v : ℤ))
    ++ s.partitionRangeGlobalIdx.map (fun v => (v : ℤ))
    ++ [boolTok full]
    ++ (if full then
          [opCode s.lastOp]
            ++ (if s.lastOp = TreeOp.adaptMapped then
                  s.mapIdx.map (fun v => (v : ℤ))
                    ++ [(s.lastGhostBros.length : ℤ)]
                    ++ s.lastGhostBros.map (fun v => (v : ℤ))
                else if s.lastOp = TreeOp.loadBalance ∨
                    s.lastOp = TreeOp.loadBalanceFirst then
                  s.partitionRangeGlobalIdx0.map (fun v => (v : ℤ))
                else [])
        else [])

/-- The restore monad: state passing plus the remaining stream; an error
carries the state at the moment of the throw. -/
def RM (α : Type) : Type :=
  PTState → List ℤ → Except (PTState × PErr) (α × PTState × List ℤ)

instance : Monad RM where
  pure a := fun s toks => Except.ok (a, s, toks)
  bind m f := fun s toks =>
    match m s toks with
    | Except.error e => Except.error e
    | Except.ok (a, s', toks') => f a s' toks'

/-- Modelled from the spec: `utils::binary::read` (sources not shipped) on
an exhausted stream raises the truncated-stream error (`SnapshotCorrupt`,
spec §4.8 failure semantics). -/
def readTok : RM ℤ := fun s toks =>
  match toks with
  | [] => Except.error (s, PErr.corrupt)
  | t :: r => Except.ok (t, s, r)

def readBool : RM Bool := do
  let t ← readTok
  pure (t != 0)

def getS : RM PTState := fun s toks => Except.ok (s, s, toks)

def modifyS (f : PTState → PTState) : RM Unit := fun s toks =>
  Except.ok ((), f s, toks)

def failR {α : Type} (e : PErr) : RM α := fun s _ => Except.error (s, e)

/-- Net effect on the facade state of restore lines 604-611:
`m_octree.initialize(dim)`, `m_trans.initialize(dim)`,
`reinitialize(dim, logfile)` (`_initialize` + `_initializePartitions`) and
`reset(false)`.  `_initializePartitions` runs with
`m_globalNumOctants = 0`, so the `uint64_t` expression
`m_globalNumOctants - 1` wraps to `2^64 - 1`.  The cleared local tree
(`m_octree.reset(false)`, `LocalTree` sources not shipped) is modelled from
the spec: no octants, no ghost brothers. -/
def resetForRestore (d : ℕ) (s : PTState) : PTState :=
  { nproc := s.nproc, dim := d, serial := true, nofGhostLayers := 1,
    maxDepth := -1, status := 0, balanceCodim := s.balanceCodim,
    periodic := List.replicate (2 * d) false,
    octants := [],
    globalNumOctants := 0,
    partitionFirstDesc := List.replicate s.nproc 0,
    partitionLastDesc := List.replicate s.nproc 0,
    partitionRangeGlobalIdx :=
      List.replicate s.nproc ((((0 : ℤ) - 1) % 2 ^ 64).toNat),
    partitionRangeGlobalIdx0 := List.replicate s.nproc 0,
    lastOp := TreeOp.init,
    mapIdx := s.mapIdx,
    lastGhostBros := [] }

/-- `ParaTree::setBalanceCodimension` against the full facade state (the
pre-adapt gate of lines 2252-2254; a fresh restore target has
`m_lastOp = OP_INIT`, so the gate never fires there). -/
def setBalanceCodimensionR (b : ℕ) : RM Unit := do
  let s ← getS
  if s.lastOp = TreeOp.preAdapt then failR PErr.invalidState
  else modifyS (fun s => { s with balanceCodim := b })

/-- `ParaTree::setPeriodic` against the full facade state. -/
def setPeriodicR (i : ℕ) (s : PTState) : PTState :=
  { s with periodic := (s.periodic.set i true).set (oppositeFace i) true }

/-- Restore lines 623-629: one periodic flag per face; a `true` flag is
applied through `setPeriodic`. -/
def readPeriodicLoop : ℕ → ℕ → RM Unit
  | _, 0 => pure ()
  | i, n + 1 => do
      let b ← readBool
      if b then modifyS (setPeriodicR i) else pure ()
      readPeriodicLoop (i + 1) n

/-- `Octant::INFO_ITEM_COUNT` info bits of one octant. -/
def readNBits : ℕ → RM (List Bool)
  | 0 => pure []
  | n + 1 => do
      let b ← readBool
      let r ← readNBits n
      pure (b :: r)

/-- Restore lines 641-680: one octant record. -/
def readOct (nInfo : ℕ) : RM SnapOct := do
  let lvl ← readTok
  let x ← readTok
  let y ← readTok
  let z ← readTok
  let g ← readTok
  let bits ← readNBits nInfo
  let bal ← readBool
  let mk ← readTok
  pure { level := lvl.toNat, x := x.toNat, y := y.toNat, z := z.toNat,
         ghostLayer := g, info := bits, balance := bal, marker := mk }

def readOctants (nInfo : ℕ) : ℕ → RM Unit
  | 0 => pure ()
  | n + 1 => do
      let o ← readOct nInfo
      modifyS (fun s => { s with octants := s.octants ++ [o] })
      readOctants nInfo n

/-- Element-wise assignment loop for the partition arrays and the mapper
(restore lines 685-707 and 727-737): read one value, store it at index `k`,
continue. -/
def readArrayLoop (upd : ℕ → ℕ → PTState → PTState) : ℕ → ℕ → RM Unit
  | _, 0 => pure ()
  | k, n + 1 => do
      let v ← readTok
      modifyS (upd k v.toNat)
      readArrayLoop upd (k + 1) n

def updFirstDesc (k v : ℕ) (s : PTState) : PTState :=
  { s with partitionFirstDesc := s.partitionFirstDesc.set k v }

def updLastDesc (k v : ℕ) (s : PTState) : PTState :=
  { s with partitionLastDesc := s.partitionLastDesc.set k v }

def updRange (k v : ℕ) (s : PTState) : PTState :=
  { s with partitionRangeGlobalIdx := s.partitionRangeGlobalIdx.set k v }

def updRange0 (k v : ℕ) (s : PTState) : PTState :=
  { s with partitionRangeGlobalIdx0 := s.partitionRangeGlobalIdx0.set k v }

def updMapIdx (k v : ℕ) (s : PTState) : PTState :=
  { s with mapIdx := s.mapIdx.set k v }

def updLGB (k v : ℕ) (s : PTState) : PTState :=
  { s with lastGhostBros := s.lastGhostBros.set k v }

/-- The tail of `ParaTree::restore` after the header checks and the
reinitialisation (lines 613-747). -/
def restoreBody (nInfo : ℕ) : RM Unit := do
  let serialBit ← readBool
  modifyS (fun s => { s with serial := serialBit })
  let ngl ← readTok
  modifyS (fun s => { s with nofGhostLayers := ngl.toNat })
  let md ← readTok
  modifyS (fun s => { s with maxDepth := md })
  let st ← readTok
  modifyS (fun s => { s with status := st.toNat })
  let bc ← readBool
  setBalanceCodimensionR (if bc then 1 else 0)
  let s1 ← getS
  readPeriodicLoop 0 (2 * s1.dim)
  let nOct ← readTok
  let nGlob ← readTok
  modifyS (fun s => { s with globalNumOctants := nGlob.toNat })
  modifyS (fun s => { s with octants := [] })
  readOctants nInfo nOct.toNat
  let s2 ← getS
  readArrayLoop updFirstDesc 0 s2.nproc
  readArrayLoop updLastDesc 0 s2.nproc
  readArrayLoop updRange 0 s2.nproc
  modifyS (fun s => { s with mapIdx := [] })
  modifyS (fun s =>
    { s with partitionRangeGlobalIdx0 := List.replicate s.nproc 0 })
  let full ← readBool
  if full then do
    let op ← readTok
    modifyS (fun s => { s with lastOp := decodeOp op })
    let s3 ← getS
    if s3.lastOp = TreeOp.adaptMapped then do
      modifyS (fun s =>
        { s with mapIdx := List.replicate s.octants.length 0 })
      readArrayLoop updMapIdx 0 s3.octants.length
      let ng ← readTok
      modifyS (fun s =>
        { s with lastGhostBros := List.replicate ng.toNat 0 })
      readArrayLoop updLGB 0 ng.toNat
    else if s3.lastOp = TreeOp.loadBalance ∨
        s3.lastOp = TreeOp.loadBalanceFirst then
      readArrayLoop updRange0 0 s3.nproc
    else pure ()
  else
    modifyS (fun s => { s with lastOp := TreeOp.init })

/-- Restore once the dimension has been read and validated: the destructive
reinitialisation (lines 608-611) followed by the body. -/
def restoreTail (nInfo : ℕ) (d : ℤ) : RM Unit := do
  modifyS (resetForRestore d.toNat)
  restoreBody nInfo

/-- The dimension validation performed by `reinitialize` (lines 427-429). -/
def restoreDimCheck (nInfo : ℕ) (d : ℤ) : RM Unit :=
  if d < 2 ∨ 3 < d then failR PErr.invalidDim
  else restoreTail nInfo d

/-- The rank-count check (lines 598-602), then the dimension read.  Note
that the dumped dimension is only checked for validity, never compared with
the receiver's current dimension. -/
def restoreNpCheck (nInfo : ℕ) (np : ℤ) : RM Unit := do
  let s ← getS
  if np ≠ (s.nproc : ℤ) then failR PErr.rankMismatch
  else do
    let d ← readTok
    restoreDimCheck nInfo d

/-- The version check (lines 591-595). -/
def restoreVersionCheck (nInfo : ℕ) (version : ℤ) : RM Unit :=
  if version ≠ 1 then failR PErr.versionMismatch
  else do
    let np ← readTok
    restoreNpCheck nInfo np

/-- `ParaTree::restore`: header checks (version, rank count, dimension
validity), destructive reinitialisation with the dumped dimension, then the
body. -/
def restoreM (nInfo : ℕ) : RM Unit := do
  let version ← readTok
  restoreVersionCheck nInfo version

def restore (nInfo : ℕ) (s : PTState) (toks : List ℤ) :
    PTState × Option PErr :=
  match restoreM nInfo s toks with
  | Except.ok (_, s', _) => (s', none)
  | Except.error (s', e) => (s', some e)

/-! ### Structural lemmas about the restore monad -/

theorem RM_bind_apply {α β : Type} (m : RM α) (f : α → RM β) (s : PTState)
    (toks : List ℤ) :
    (m >>= f) s toks = match m s toks with
      | Except.error e => Except.error e
      | Except.ok (a, s', toks') => f a s' toks' := rfl

theorem RM_pure_apply {α : Type} (a : α) (s : PTState) (toks : List ℤ) :
    (pure a : RM α) s toks = Except.ok (a, s, toks) := rfl

/-- `m` never changes the dimension field of the state. -/
def dimPres {α : Type} (m : RM α) : Prop :=
  ∀ s toks a s' toks', m s toks = Except.ok (a, s', toks') → s'.dim = s.dim

theorem dimPres_pure {α : Type} (a : α) : dimPres (pure a : RM α) := by
  intro s toks a' s' toks' h
  rw [RM_pure_apply] at h
  simp only [Except.ok.injEq, Prod.mk.injEq] at h
  rw [← h.2.1]

theorem dimPres_bind {α β : Type} (m : RM α) (f : α → RM β)
    (hm : dimPres m) (hf : ∀ a, dimPres (f a)) : dimPres (m >>= f) := by
  intro s toks b s' toks' h
  rw [RM_bind_apply] at h
  match hm' : m s toks with
  | Except.error e =>
    rw [hm'] at h
    exact absurd h (by simp)
  | Except.ok (a, s1, toks1) =>
    rw [hm'] at h
    have h1 := hm s toks a s1 toks1 hm'
    have h2 := hf a s1 toks1 b s' toks' h
    rw [h2, h1]

theorem dimPres_readTok : dimPres readTok := by
  intro s toks a s' toks' h
  match toks with
  | [] => exact absurd h (by simp [readTok])
  | t :: r =>
    have : Except.ok (t, s, r) = Except.ok (a, s', toks') := h
    simp only [Except.ok.injEq, Prod.mk.injEq] at this
    rw [← this.2.1]

theorem dimPres_readBool : dimPres readBool :=
  dimPres_bind _ _ dimPres_readTok (fun _ => dimPres_pure _)

theorem dimPres_getS : dimPres getS := by
  intro s toks a s' toks' h
  have : Except.ok (s, s, toks) = Except.ok (a, s', toks') := h
  simp only [Except.ok.injEq, Prod.mk.injEq] at this
  rw [← this.2.1]

theorem dimPres_modifyS (f : PTState → PTState)
    (hf : ∀ s, (f s).dim = s.dim) : dimPres (modifyS f) := by
  intro s toks a s' toks' h
  have : Except.ok ((), f s, toks) = Except.ok (a, s', toks') := h
  simp only [Except.ok.injEq, Prod.mk.injEq] at this
  rw [← this.2.1]
  exact hf s

theorem dimPres_failR {α : Type} (e : PErr) : dimPres (failR e : RM α) := by
  intro s toks a s' toks' h
  exact absurd h (by simp [failR])

theorem dimPres_ite {α : Type} (c : Prop) [Decidable c] (m₁ m₂ : RM α)
    (h₁ : dimPres m₁) (h₂ : dimPres m₂) :
    dimPres (if c then m₁ else m₂) := by
  by_cases hc : c
  · rw [if_pos hc]; exact h₁
  · rw [if_neg hc]; exact h₂

theorem dimPres_setBalanceCodimensionR (b : ℕ) :
    dimPres (setBalanceCodimensionR b) := by
  unfold setBalanceCodimensionR
  exact dimPres_bind _ _ dimPres_getS (fun s =>
    dimPres_ite _ _ _ (dimPres_failR _) (dimPres_modifyS _ (fun _ => rfl)))

theorem dimPres_readPeriodicLoop : ∀ i n, dimPres (readPeriodicLoop i n) := by
  intro i n
  induction n generalizing i with
  | zero => exact dimPres_pure _
  | succ n ih =>
    unfold readPeriodicLoop
    refine dimPres_bind _ _ dimPres_readBool (fun b => ?_)
    refine dimPres_ite _ _ _ ?_ ?_
    · exact dimPres_bind _ _ (dimPres_modifyS _ (fun _ => rfl))
        (fun _ => ih (i + 1))
    · exact dimPres_bind _ _ (dimPres_pure _) (fun _ => ih (i + 1))

theorem dimPres_readNBits : ∀ n, dimPres (readNBits n) := by
  intro n
  induction n with
  | zero => exact dimPres_pure _
  | succ n ih =>
    unfold readNBits
    refine dimPres_bind _ _ dimPres_readBool (fun b => ?_)
    exact dimPres_bind _ _ ih (fun r => dimPres_pure _)

theorem dimPres_readOct (nInfo : ℕ) : dimPres (readOct nInfo) := by
  unfold readOct
  refine dimPres_bind _ _ dimPres_readTok (fun _ => ?_)
  refine dimPres_bind _ _ dimPres_readTok (fun _ => ?_)
  refine dimPres_bind _ _ dimPres_readTok (fun _ => ?_)
  refine dimPres_bind _ _ dimPres_readTok (fun _ => ?_)
  refine dimPres_bind _ _ dimPres_readTok (fun _ => ?_)
  refine dimPres_bind _ _ (dimPres_readNBits nInfo) (fun _ => ?_)
  refine dimPres_bind _ _ dimPres_readBool (fun _ => ?_)
  exact dimPres_bind _ _ dimPres_readTok (fun _ => dimPres_pure _)

theorem dimPres_readOctants (nInfo : ℕ) : ∀ n,
    dimPres (readOctants nInfo n) := by
  intro n
  induction n with
  | zero => exact dimPres_pure _
  | succ n ih =>
    unfold readOctants
    refine dimPres_bind _ _ (dimPres_readOct nInfo) (fun o => ?_)
    exact dimPres_bind _ _ (dimPres_modifyS _ (fun _ => rfl)) (fun _ => ih)

theorem dimPres_readArrayLoop (upd : ℕ → ℕ → PTState → PTState)
    (hupd : ∀ k v s, (upd k v s).dim = s.dim) :
    ∀ k n, dimPres (readArrayLoop upd k n) := by
  intro k n
  induction n generalizing k with
  | zero => exact dimPres_pure _
  | succ n ih =>
    unfold readArrayLoop
    refine dimPres_bind _ _ dimPres_readTok (fun v => ?_)
    exact dimPres_bind _ _ (dimPres_modifyS _ (hupd _ _)) (fun _ => ih (k + 1))

theorem dimPres_restoreBody (nInfo : ℕ) : dimPres (restoreBody nInfo) := by
  unfold restoreBody
  refine dimPres_bind _ _ dimPres_readBool (fun _ => ?_)
  refine dimPres_bind _ _ (dimPres_modifyS _ (fun _ => rfl)) (fun _ => ?_)
  refine dimPres_bind _ _ dimPres_readTok (fun _ => ?_)
  refine dimPres_bind _ _ (dimPres_modifyS _ (fun _ => rfl)) (fun _ => ?_)
  refine dimPres_bind _ _ dimPres_readTok (fun _ => ?_)
  refine dimPres_bind _ _ (dimPres_modifyS _ (fun _ => rfl)) (fun _ => ?_)
  refine dimPres_bind _ _ dimPres_readTok (fun _ => ?_)
  refine dimPres_bind _ _ (dimPres_modifyS _ (fun _ => rfl)) (fun _ => ?_)
  refine dimPres_bind _ _ dimPres_readBool (fun bc => ?_)
  refine dimPres_bind _ _ (dimPres_setBalanceCodimensionR _) (fun _ => ?_)
  refine dimPres_bind _ _ dimPres_getS (fun s1 => ?_)
  refine dimPres_bind _ _ (dimPres_readPeriodicLoop 0 (2 * s1.dim))
    (fun _ => ?_)
  refine dimPres_bind _ _ dimPres_readTok (fun nOct => ?_)
  refine dimPres_bind _ _ dimPres_readTok (fun nGlob => ?_)
  refine dimPres_bind _ _ (dimPres_modifyS _ (fun _ => rfl)) (fun _ => ?_)
  refine dimPres_bind _ _ (dimPres_modifyS _ (fun _ => rfl)) (fun _ => ?_)
  refine dimPres_bind _ _ (dimPres_readOctants nInfo _) (fun _ => ?_)
  refine dimPres_bind _ _ dimPres_getS (fun s2 => ?_)
  refine dimPres_bind _ _
    (dimPres_readArrayLoop updFirstDesc (fun _ _ _ => rfl) 0 s2.nproc)
    (fun _ => ?_)
  refine dimPres_bind _ _
    (dimPres_readArrayLoop updLastDesc (fun _ _ _ => rfl) 0 s2.nproc)
    (fun _ => ?_)
  refine dimPres_bind _ _
    (dimPres_readArrayLoop updRange (fun _ _ _ => rfl) 0 s2.nproc)
    (fun _ => ?_)
  refine dimPres_bind _ _ (dimPres_modifyS _ (fun _ => rfl)) (fun _ => ?_)
  refine dimPres_bind _ _ (dimPres_modifyS _ (fun _ => rfl)) (fun _ => ?_)
  refine dimPres_bind _ _ dimPres_readBool (fun full => ?_)
  refine dimPres_ite _ _ _ ?_ (dimPres_modifyS _ (fun _ => rfl))
  refine dimPres_bind _ _ dimPres_readTok (fun op => ?_)
  refine dimPres_bind _ _ (dimPres_modifyS _ (fun _ => rfl)) (fun _ => ?_)
  refine dimPres_bind _ _ dimPres_getS (fun s3 => ?_)
  refine dimPres_ite _ _ _ ?_ ?_
  · refine dimPres_bind _ _ (dimPres_modifyS _ (fun _ => rfl)) (fun _ => ?_)
    refine dimPres_bind _ _
      (dimPres_readArrayLoop updMapIdx (fun _ _ _ => rfl) 0 s3.octants.length)
      (fun _ => ?_)
    refine dimPres_bind _ _ dimPres_readTok (fun ng => ?_)
    refine dimPres_bind _ _ (dimPres_modifyS _ (fun _ => rfl)) (fun _ => ?_)
    exact dimPres_readArrayLoop updLGB (fun _ _ _ => rfl) 0 ng.toNat
  · refine dimPres_ite _ _ _ ?_ (dimPres_pure _)
    exact dimPres_readArrayLoop updRange0 (fun _ _ _ => rfl) 0 s3.nproc

/-! ### Evaluation lemmas for the restore header -/

theorem restoreM_nil (nInfo : ℕ) (s : PTState) :
    restoreM nInfo s [] = Except.error (s, PErr.corrupt) := rfl

theorem restoreM_cons (nInfo : ℕ) (s : PTState) (v : ℤ) (t1 : List ℤ) :
    restoreM nInfo s (v :: t1) = restoreVersionCheck nInfo v s t1 := rfl

theorem restoreVersionCheck_bad (nInfo : ℕ) (s : PTState) (v : ℤ)
    (t : List ℤ) (hv : v ≠ 1) :
    restoreVersionCheck nInfo v s t
      = Except.error (s, PErr.versionMismatch) := by
  unfold restoreVersionCheck
  rw [if_pos hv]
  rfl

theorem restoreVersionCheck_good_nil (nInfo : ℕ) (s : PTState) :
    restoreVersionCheck nInfo 1 s [] = Except.error (s, PErr.corrupt) := by
  unfold restoreVersionCheck
  rw [if_neg (by simp)]
  rfl

theorem restoreVersionCheck_good_cons (nInfo : ℕ) (s : PTState) (np : ℤ)
    (t2 : List ℤ) :
    restoreVersionCheck nInfo 1 s (np :: t2)
      = restoreNpCheck nInfo np s t2 := by
  unfold restoreVersionCheck
  rw [if_neg (by simp)]
  rfl

theorem restoreNpCheck_apply (nInfo : ℕ) (s : PTState) (np : ℤ)
    (t : List ℤ) :
    restoreNpCheck nInfo np s t
      = (if np ≠ (s.nproc : ℤ) then (failR PErr.rankMismatch : RM Unit)
         else do
           let d ← readTok
           restoreDimCheck nInfo d) s t := rfl

theorem restoreNpCheck_bad (nInfo : ℕ) (s : PTState) (np : ℤ) (t : List ℤ)
    (h : np ≠ (s.nproc : ℤ)) :
    restoreNpCheck nInfo np s t = Except.error (s, PErr.rankMismatch) := by
  rw [restoreNpCheck_apply, if_pos h]
  rfl

theorem restoreNpCheck_good_nil (nInfo : ℕ) (s : PTState) :
    restoreNpCheck nInfo (s.nproc : ℤ) s []
      = Except.error (s, PErr.corrupt) := by
  rw [restoreNpCheck_apply, if_neg (by simp)]
  rfl

theorem restoreNpCheck_good_cons (nInfo : ℕ) (s : PTState) (d : ℤ)
    (t3 : List ℤ) :
    restoreNpCheck nInfo (s.nproc : ℤ) s (d :: t3)
      = restoreDimCheck nInfo d s t3 := by
  rw [restoreNpCheck_apply, if_neg (by simp)]
  rfl

theorem restoreDimCheck_bad (nInfo : ℕ) (s : PTState) (d : ℤ) (t : List ℤ)
    (h : d < 2 ∨ 3 < d) :
    restoreDimCheck nInfo d s t = Except.error (s, PErr.invalidDim) := by
  unfold restoreDimCheck
  rw [if_pos h]
  rfl

theorem restoreDimCheck_good (nInfo : ℕ) (s : PTState) (d : ℤ) (t : List ℤ)
    (h : ¬ (d < 2 ∨ 3 < d)) :
    restoreDimCheck nInfo d s t
      = restoreBody nInfo (resetForRestore d.toNat s) t := by
  unfold restoreDimCheck restoreTail
  rw [if_neg h]
  rfl

/-- C1 (amended): `restore` never compares the dumped dimension with the
facade's current dimension.  After the version and rank-count checks pass,
the dumped dimension is only validated to lie in `{2, 3}` (by
`reinitialize`), the engine is reinitialised with it, and every successful
restore leaves the facade with the *stream's* dimension — whatever the
dimension was before the call. -/
theorem restore_ok_adopts_stream_dim (nInfo : ℕ) (s : PTState)
    (toks : List ℤ) (r : PTState)
    (h : restore nInfo s toks = (r, none)) :
    2 ≤ r.dim ∧ r.dim ≤ 3 ∧ toks.getD 2 0 = (r.dim : ℤ) := by
  unfold restore at h
  match hM : restoreM nInfo s toks with
  | Except.error (s', e) =>
    rw [hM] at h
    simp at h
  | Except.ok (u, s', toks') =>
    rw [hM] at h
    simp only [Prod.mk.injEq] at h
    obtain ⟨hr, -⟩ := h
    match toks with
    | [] =>
      rw [restoreM_nil] at hM
      exact absurd hM (by simp)
    | v :: t1 =>
      rw [restoreM_cons] at hM
      by_cases hv : v = 1
      · subst hv
        match t1 with
        | [] =>
          rw [restoreVersionCheck_good_nil] at hM
          exact absurd hM (by simp)
        | np :: t2 =>
          rw [restoreVersionCheck_good_cons] at hM
          by_cases hnp : np = (s.nproc : ℤ)
          · subst hnp
            match t2 with
            | [] =>
              rw [restoreNpCheck_good_nil] at hM
              exact absurd hM (by simp)
            | d :: t3 =>
              rw [restoreNpCheck_good_cons] at hM
              by_cases hd : d < 2 ∨ 3 < d
              · rw [restoreDimCheck_bad _ _ _ _ hd] at hM
                exact absurd hM (by simp)
              · rw [restoreDimCheck_good _ _ _ _ hd] at hM
                have hdim := dimPres_restoreBody nInfo _ _ _ _ _ hM
                have hreset : (resetForRestore d.toNat s).dim = d.toNat := rfl
                rw [hreset] at hdim
                rw [← hr]
                push_neg at hd
                refine ⟨by omega, by omega, ?_⟩
                rw [hdim]
                simp only [List.getD_cons_succ, List.getD_cons_zero]
                omega
          · rw [restoreNpCheck_bad _ _ _ _ hnp] at hM
            exact absurd hM (by simp)
      · rw [restoreVersionCheck_bad _ _ _ _ hv] at hM
        exact absurd hM (by simp)

/-- A full facade state of dimension 3 (one root octant, one rank) acting as
the dump source. -/
def snapDonor : PTState :=
  { nproc := 1, dim := 3, serial := true, nofGhostLayers := 1, maxDepth := 0,
    status := 5, balanceCodim := 1,
    periodic := [false, false, true, true, false, false],
    octants := [⟨0, 0, 0, 0, -1, [true, false], true, 2⟩],
    globalNumOctants := 1,
    partitionFirstDesc := [0], partitionLastDesc := [99],
    partitionRangeGlobalIdx := [0], partitionRangeGlobalIdx0 := [0],
    lastOp := TreeOp.init, mapIdx := [], lastGhostBros := [] }

/-- A facade state of dimension 2 (one root octant, one rank) acting as the
restore target. -/
def snapTarget : PTState :=
  { nproc := 1, dim := 2, serial := true, nofGhostLayers := 1, maxDepth := 0,
    status := 0, balanceCodim := 1,
    periodic := [false, false, false, false],
    octants := [⟨0, 0, 0, 0, -1, [false, false], true, 0⟩],
    globalNumOctants := 1,
    partitionFirstDesc := [0], partitionLastDesc := [3],
    partitionRangeGlobalIdx := [0], partitionRangeGlobalIdx0 := [0],
    lastOp := TreeOp.init, mapIdx := [], lastGhostBros := [] }

/-- C1 counterexample: restoring a stream dumped with dimension 3 into a
facade of dimension 2 raises no error at all — the restore succeeds and the
facade silently becomes three-dimensional.  No dimension-mismatch error
exists in `ParaTree::restore`. -/
theorem restore_dim_mismatch_no_error :
    snapDonor.dim = 3 ∧ snapTarget.dim = 2 ∧
    (List.getD (dump snapDonor false) 2 0 : ℤ) ≠ (snapTarget.dim : ℤ) ∧
    (restore 2 snapTarget (dump snapDonor false)).2 = none ∧
    (restore 2 snapTarget (dump snapDonor false)).1.dim = 3 := by
  refine ⟨rfl, rfl, by decide, by decide, by decide⟩

/-- Witness for C1: the amended theorem applied to the concrete dump of
`snapDonor` restored into `snapTarget`. -/
theorem restore_ok_adopts_stream_dim_witness :
    restore 2 snapTarget (dump snapDonor false)
      = ((restore 2 snapTarget (dump snapDonor false)).1, none) ∧
    (2 ≤ (restore 2 snapTarget (dump snapDonor false)).1.dim ∧
     (restore 2 snapTarget (dump snapDonor false)).1.dim ≤ 3 ∧
     (dump snapDonor false).getD 2 0
       = ((restore 2 snapTarget (dump snapDonor false)).1.dim : ℤ)) :=
  ⟨by decide,
   restore_ok_adopts_stream_dim 2 snapTarget (dump snapDonor false)
     (restore 2 snapTarget (dump snapDonor false)).1 (by decide)⟩

/-- C3 (amended): the only errors `restore` raises before mutating the
engine are the version mismatch and the rank-count mismatch; both leave the
state exactly as it was (the throws precede every store), as does a stream
that is empty from the start.  Atomicity ends there: once the dimension
field has been consumed the engine is destructively reinitialised (see the
counterexample for a truncated stream). -/
theorem restore_header_errors_atomic (nInfo : ℕ) (s : PTState) (v np : ℤ)
    (t1 t2 : List ℤ) :
    (v ≠ 1 → restore nInfo s (v :: t1) = (s, some PErr.versionMismatch)) ∧
    (np ≠ (s.nproc : ℤ) →
      restore nInfo s (1 :: np :: t2) = (s, some PErr.rankMismatch)) ∧
    restore nInfo s [] = (s, some PErr.corrupt) := by
  refine ⟨?_, ?_, ?_⟩
  · intro hv
    unfold restore
    rw [restoreM_cons, restoreVersionCheck_bad _ _ _ _ hv]
  · intro hnp
    unfold restore
    rw [restoreM_cons, restoreVersionCheck_good_cons,
      restoreNpCheck_bad _ _ _ _ hnp]
  · unfold restore
    rw [restoreM_nil]

/-- Witness for C3 at concrete mismatching headers. -/
theorem restore_header_errors_atomic_witness :
    restore 2 snapTarget (7 :: []) = (snapTarget, some PErr.versionMismatch) ∧
    restore 2 snapTarget [1, 5] = (snapTarget, some PErr.rankMismatch) ∧
    restore 2 snapTarget [] = (snapTarget, some PErr.corrupt) :=
  ⟨(restore_header_errors_atomic 2 snapTarget 7 5 [] []).1 (by decide),
   (restore_header_errors_atomic 2 snapTarget 7 5 [] []).2.1 (by decide),
   (restore_header_errors_atomic 2 snapTarget 7 5 [] []).2.2⟩

/-- C3 counterexample: a stream with a valid header (version 1, matching
rank count, dimension 2) that is truncated immediately afterwards makes
`restore` raise the truncated-stream error, but the engine is *not* left in
its pre-call state: the octant list has already been cleared and the state
reset. -/
theorem restore_truncated_not_atomic :
    (restore 2 snapTarget [1, 1, 2]).2 = some PErr.corrupt ∧
    (restore 2 snapTarget [1, 1, 2]).1.octants = [] ∧
    snapTarget.octants ≠ [] ∧
    (restore 2 snapTarget [1, 1, 2]).1 ≠ snapTarget := by
  refine ⟨by decide, by decide, by decide, by decide⟩

end ParaTree
